import Mathlib

/-!
Verification of the routing library (packages/routing/src/index.ts).

The library maps typed route objects to relative URL strings and back.
This file gives a shallow embedding of the serializer (toRelativeUrl,
toRelativePath), the deserializer (fromUrl) together with its pattern
compiler (escapeRegExp + placeholder rewriting + RegExp exec), the route
registry (route, definedRoutes, from), and the ECMAScript builtins the
code relies on (encodeURIComponent, decodeURIComponent, URLSearchParams,
String.replace with a string pattern, loose equality), and proves or
refutes the specification claims about them.

JavaScript values that flow through annotated fields are modelled by the
inductive JSValue below, restricted to the shapes the library manipulates:
undefined, null, booleans, strings and arrays of strings.
-/

namespace Routing

/-- First result of an option-returning function over a list. -/
def firstSome : List α → (α → Option β) → Option β
  | [], _ => none
  | a :: as, f =>
    match f a with
    | some b => some b
    | none => firstSome as f

/-- Splits a character list on a separator character; splitting the empty
list yields one empty piece, mirroring the splitting used by the
URLSearchParams parser. -/
def splitListOn (sep : Char) : List Char → List (List Char)
  | [] => [[]]
  | c :: rest =>
    if c = sep then
      [] :: splitListOn sep rest
    else
      match splitListOn sep rest with
      | [] => [[c]]
      | piece :: pieces => (c :: piece) :: pieces

/-- Modelled builtin: String.prototype.replace with a plain string pattern,
which replaces only the first occurrence.  With an empty pattern the
replacement is inserted at the start, as in ECMAScript. -/
def replaceFirstL : List Char → List Char → List Char → List Char
  | [], pat, rep => if pat = [] then rep else []
  | c :: rest, pat, rep =>
    if pat.isPrefixOf (c :: rest) then
      rep ++ (c :: rest).drop pat.length
    else
      c :: replaceFirstL rest pat rep

/-- Modelled builtin: assignment obj[k] = v on a JavaScript object kept as
an ordered association list: an existing key keeps its position and gets
the new value, a new key is appended. -/
def setAssoc : List (String × α) → String → α → List (String × α)
  | [], k, v => [(k, v)]
  | (k0, v0) :: rest, k, v =>
    if k0 = k then (k0, v) :: rest else (k0, v0) :: setAssoc rest k v

/-- Modelled builtin: Object.assign, merging entries left to right. -/
def assignEntries (ps new : List (String × α)) : List (String × α) :=
  new.foldl (fun acc kv => setAssoc acc kv.1 kv.2) ps

/-- JavaScript values as used by the library for annotated fields. -/
inductive JSValue where
  | undef
  | null
  | bool (b : Bool)
  | str (s : String)
  | arr (elems : List String)
deriving DecidableEq, Repr

/-- Modelled builtin: value.toString() for the JSValue shapes above;
an array stringifies by joining its elements with commas. -/
def jsToString : JSValue → String
  | .undef => "undefined"
  | .null => "null"
  | .bool b => if b then "true" else "false"
  | .str s => s
  | .arr xs => String.intercalate "," xs

/-- Modelled builtin: the loose test value == null, true exactly for
undefined and null. -/
def jsLooseNull : JSValue → Bool
  | .undef => true
  | .null => true
  | _ => false

/-- Helper for loose equality with false: whether ToNumber of a string is
zero.  Restricted model: the empty or all-zero-digit trimmed string; the
exotic numeric spellings (signs, exponents, dots) never reach this test in
the library, which compares booleans here. -/
def strNumericZero (s : String) : Bool :=
  (s.trim).data.all (fun c => c = '0')

/-- Modelled builtin: the loose test value == false of ECMAScript abstract
equality, for the JSValue shapes above.  undefined == false and
null == false are both false; a string or array compares via ToNumber of
its string form. -/
def jsLooseEqFalse : JSValue → Bool
  | .undef => false
  | .null => false
  | .bool b => !b
  | .str s => strNumericZero s
  | .arr xs => strNumericZero (String.intercalate "," xs)

/-! ## Percent encoding builtins -/

/-- Uppercase hexadecimal digit of a number below 16. -/
def hexDigit (n : Nat) : Char :=
  if n < 10 then Char.ofNat (48 + n) else Char.ofNat (55 + n)

/-- Value of a hexadecimal digit character. -/
def hexVal (c : Char) : Option Nat :=
  if '0' ≤ c ∧ c ≤ '9' then some (c.toNat - 48)
  else if 'A' ≤ c ∧ c ≤ 'F' then some (c.toNat - 55)
  else if 'a' ≤ c ∧ c ≤ 'f' then some (c.toNat - 87)
  else none

/-- Percent escape of one byte. -/
def percentByte (b : Nat) : List Char :=
  ['%', hexDigit ((b / 16) % 16), hexDigit (b % 16)]

/-- UTF-8 bytes of a character. -/
def utf8Bytes (c : Char) : List Nat :=
  let n := c.toNat
  if n < 0x80 then [n]
  else if n < 0x800 then [0xC0 + n / 64, 0x80 + n % 64]
  else if n < 0x10000 then [0xE0 + n / 4096, 0x80 + (n / 64) % 64, 0x80 + n % 64]
  else [0xF0 + n / 262144, 0x80 + (n / 4096) % 64, 0x80 + (n / 64) % 64, 0x80 + n % 64]

/-- Characters left unescaped by encodeURIComponent: letters, digits and
- _ . ! ~ * quote ( ). -/
def unreservedURI (c : Char) : Bool :=
  ('A' ≤ c ∧ c ≤ 'Z') ∨ ('a' ≤ c ∧ c ≤ 'z') ∨ ('0' ≤ c ∧ c ≤ '9') ∨
    c = '-' ∨ c = '_' ∨ c = '.' ∨ c = '!' ∨ c = '~' ∨ c = '*' ∨ c = '\x27' ∨
    c = '(' ∨ c = ')'

/-- Modelled builtin: encodeURIComponent on a character list. -/
def encodeURIComponentL (cs : List Char) : List Char :=
  cs.flatMap fun c =>
    if unreservedURI c then [c] else (utf8Bytes c).flatMap percentByte

/-- Modelled builtin: encodeURIComponent. -/
def encodeURIComponent (s : String) : String :=
  String.mk (encodeURIComponentL s.data)

/-- Reads two hexadecimal digit characters as a byte. -/
def hex2 (c1 c2 : Char) : Option Nat := do
  let h1 ← hexVal c1
  let h2 ← hexVal c2
  pure (h1 * 16 + h2)

/-- Reads a percent escape: a literal percent sign and two hex digits. -/
def parseHexByte : List Char → Option (Nat × List Char)
  | '%' :: c1 :: c2 :: rest => (hex2 c1 c2).map (fun b => (b, rest))
  | _ => none

/-- Decodes one escape sequence given its two leading hex digits and the
remaining input: an ASCII byte stands alone, larger lead bytes must be
followed by the right number of valid continuation-byte escapes. -/
def decodeEscape (c1 c2 : Char) (rest : List Char) : Option (Char × List Char) :=
  match hex2 c1 c2 with
  | none => none
  | some b =>
    if b < 0x80 then some (Char.ofNat b, rest)
    else if 0xC2 ≤ b ∧ b ≤ 0xDF then
      match parseHexByte rest with
      | some (b2, rest2) =>
        if 0x80 ≤ b2 ∧ b2 ≤ 0xBF then
          some (Char.ofNat ((b - 0xC0) * 64 + (b2 - 0x80)), rest2)
        else none
      | none => none
    else if 0xE0 ≤ b ∧ b ≤ 0xEF then
      match parseHexByte rest with
      | some (b2, rest2) =>
        match parseHexByte rest2 with
        | some (b3, rest3) =>
          if ((b = 0xE0 ∧ 0xA0 ≤ b2 ∧ b2 ≤ 0xBF) ∨
              (b = 0xED ∧ 0x80 ≤ b2 ∧ b2 ≤ 0x9F) ∨
              (b ≠ 0xE0 ∧ b ≠ 0xED ∧ 0x80 ≤ b2 ∧ b2 ≤ 0xBF)) ∧
             (0x80 ≤ b3 ∧ b3 ≤ 0xBF) then
            some (Char.ofNat ((b - 0xE0) * 4096 + (b2 - 0x80) * 64 + (b3 - 0x80)), rest3)
          else none
        | none => none
      | none => none
    else if 0xF0 ≤ b ∧ b ≤ 0xF4 then
      match parseHexByte rest with
      | some (b2, rest2) =>
        match parseHexByte rest2 with
        | some (b3, rest3) =>
          match parseHexByte rest3 with
          | some (b4, rest4) =>
            if ((b = 0xF0 ∧ 0x90 ≤ b2 ∧ b2 ≤ 0xBF) ∨
                (b = 0xF4 ∧ 0x80 ≤ b2 ∧ b2 ≤ 0x8F) ∨
                (b ≠ 0xF0 ∧ b ≠ 0xF4 ∧ 0x80 ≤ b2 ∧ b2 ≤ 0xBF)) ∧
               (0x80 ≤ b3 ∧ b3 ≤ 0xBF) ∧ (0x80 ≤ b4 ∧ b4 ≤ 0xBF) then
              some (Char.ofNat
                ((b - 0xF0) * 262144 + (b2 - 0x80) * 4096 +
                  (b3 - 0x80) * 64 + (b4 - 0x80)), rest4)
            else none
          | none => none
        | none => none
      | none => none
    else none

/-- Decodes the escape sequence at the start of the input after its
leading percent sign; fails when fewer than two characters follow. -/
def decodeEscapeL : List Char → Option (Char × List Char)
  | c1 :: c2 :: rest => decodeEscape c1 c2 rest
  | _ => none

/-- Modelled builtin: decodeURIComponent, strict: a malformed percent
escape or an invalid UTF-8 escape sequence yields none (URIError); other
characters pass through unchanged. The fuel argument only serves
structural recursion: each step consumes at least one character, so any
fuel at or above the input length gives the same result. -/
def decodeURIComponentLF : Nat → List Char → Option (List Char)
  | _, [] => some []
  | 0, _ :: _ => none
  | fuel + 1, c :: rest =>
    if c = '%' then
      (decodeEscapeL rest).bind fun p =>
        (decodeURIComponentLF fuel p.2).map (fun tl => p.1 :: tl)
    else (decodeURIComponentLF fuel rest).map (fun tl => c :: tl)

/-- Modelled builtin: decodeURIComponent on character lists. -/
def decodeURIComponentL (cs : List Char) : Option (List Char) :=
  decodeURIComponentLF cs.length cs

/-- Modelled builtin: decodeURIComponent on strings. -/
def decodeURIComponent (s : String) : Option String :=
  (decodeURIComponentL s.data).map String.mk

/-! ## URLSearchParams builtin -/

/-- Characters kept verbatim by the application/x-www-form-urlencoded
serializer: letters, digits and * - . _ ; the space becomes a plus. -/
def formSafe (c : Char) : Bool :=
  ('A' ≤ c ∧ c ≤ 'Z') ∨ ('a' ≤ c ∧ c ≤ 'z') ∨ ('0' ≤ c ∧ c ≤ '9') ∨
    c = '*' ∨ c = '-' ∨ c = '.' ∨ c = '_'

/-- Modelled builtin: the form-urlencoded serialization of one name or
value. -/
def formUrlEncodeL (cs : List Char) : List Char :=
  cs.flatMap fun c =>
    if c = ' ' then ['+']
    else if formSafe c then [c]
    else (utf8Bytes c).flatMap percentByte

/-- Form-urlencoded serialization on strings. -/
def formUrlEncode (s : String) : String :=
  String.mk (formUrlEncodeL s.data)

/-- One lenient decoding step given the two characters after a percent
sign and the rest of the input.  A malformed escape is kept literally; an
escape sequence that is not valid UTF-8 (only the two-byte forms are
modelled; longer invalid forms also produce replacement characters)
becomes the replacement character. -/
def lenientEscape1 (c1 c2 : Char) (rest2 : List Char) : Option (Char × List Char) :=
  match hex2 c1 c2 with
  | none => some ('%', c1 :: c2 :: rest2)
  | some b =>
    if b < 0x80 then some (Char.ofNat b, rest2)
    else
      match parseHexByte rest2 with
      | some (b2, rest3) =>
        if 0xC2 ≤ b ∧ b ≤ 0xDF ∧ 0x80 ≤ b2 ∧ b2 ≤ 0xBF then
          some (Char.ofNat ((b - 0xC0) * 64 + (b2 - 0x80)), rest3)
        else some ('\uFFFD', rest2)
      | none => some ('\uFFFD', rest2)

/-- Decodes the escape sequence at the start of the input after its
leading percent sign; none when fewer than two characters follow, in
which case the remaining input is kept literally. -/
def lenientEscape : List Char → Option (Char × List Char)
  | c1 :: c2 :: rest2 => lenientEscape1 c1 c2 rest2
  | _ => none

/-- Modelled builtin: lenient percent decoding used by the URLSearchParams
parser, fuelled for structural recursion: one unit of fuel is spent per
decoding step and every step consumes at least one character, so any fuel
at or above the input length gives the same result. -/
def percentDecodeLenientF : Nat → List Char → List Char
  | 0, cs => cs
  | _ + 1, [] => []
  | fuel + 1, c :: rest =>
    if c = '%' then
      ((lenientEscape rest).map
        (fun p => p.1 :: percentDecodeLenientF fuel p.2)).getD ('%' :: rest)
    else c :: percentDecodeLenientF fuel rest

/-- Modelled builtin: lenient percent decoding with the step counter
instantiated to the input length, which always suffices. -/
def percentDecodeLenient (cs : List Char) : List Char :=
  percentDecodeLenientF cs.length cs

/-- Modelled builtin: decoding of one form-urlencoded name or value,
replacing plus by space and then percent-decoding leniently. -/
def formUrlDecodeL (cs : List Char) : List Char :=
  percentDecodeLenient (cs.map (fun c => if c = '+' then ' ' else c))

/-- One piece of a query string: the name runs to the first equals sign,
the value is what follows it, or empty when there is none. -/
def parsePiece (piece : List Char) : String × String :=
  let name := piece.takeWhile (fun c => c ≠ '=')
  let rest := piece.dropWhile (fun c => c ≠ '=')
  let value := match rest with
    | [] => []
    | _ :: tl => tl
  (String.mk (formUrlDecodeL name), String.mk (formUrlDecodeL value))

/-- Modelled builtin: the URLSearchParams constructor on a query string,
splitting on ampersands, skipping empty pieces and decoding each name and
value. -/
def parseUrlencoded (q : List Char) : List (String × String) :=
  (splitListOn '&' q).filterMap fun piece =>
    if piece = [] then none else some (parsePiece piece)

/-- Modelled builtin: URLSearchParams.get, the first value under a name
or null. -/
def searchParamsGet (ps : List (String × String)) (k : String) : Option String :=
  (ps.find? (fun kv => kv.1 = k)).map (fun kv => kv.2)

/-- Modelled builtin: URLSearchParams.append. -/
def appendParam (ps : List (String × String)) (k v : String) : List (String × String) :=
  ps ++ [(k, v)]

/-- Modelled builtin: URLSearchParams.set: the first pair under the name
takes the new value and the other pairs under it are removed; a missing
name is appended. -/
def setParam : List (String × String) → String → String → List (String × String)
  | [], k, v => [(k, v)]
  | (k0, v0) :: rest, k, v =>
    if k0 = k then (k0, v) :: rest.filter (fun kv => kv.1 ≠ k)
    else (k0, v0) :: setParam rest k v

/-- Modelled builtin: URLSearchParams.toString on a character level,
joining the serialized name=value pairs with ampersands. -/
def urlencodedSerializeL : List (String × String) → List Char
  | [] => []
  | [kv] => formUrlEncodeL kv.1.data ++ '=' :: formUrlEncodeL kv.2.data
  | kv :: rest =>
    formUrlEncodeL kv.1.data ++ '=' :: formUrlEncodeL kv.2.data ++
      '&' :: urlencodedSerializeL rest

/-- Modelled builtin: URLSearchParams.toString. -/
def urlencodedSerialize (ps : List (String × String)) : String :=
  String.mk (urlencodedSerializeL ps)

/-! ## Data model (index.ts: RoutingType, Metadata, decorators)

The reflection machinery (Reflect.metadata with the routing key) is
modelled by attaching the resolved Metadata directly to each declared
field of a route type.  The decorators path() and query() only package
their arguments into these variants, so the variants below carry exactly
the information the decorators store.  The unused dataType slot of plain
path metadata is omitted because no code reads it. -/

/-- Declared value kind of a plain annotation: the dataType === Boolean
comparison only distinguishes the Boolean constructor from anything else. -/
inductive DataKind where
  | boolean
  | other
deriving DecidableEq, Repr

/-- A routing annotation: RoutingType.Path, PathSerde, Query, QuerySerde
with the payloads the decorators store. -/
inductive Metadata where
  | path (propertyKey : Option String)
  | pathSerde (serialize : JSValue → List (String × String))
      (deserialize : List (String × String) → JSValue)
  | query (propertyKey : Option String) (dataType : Option DataKind)
  | querySerde (serialize : JSValue → List (String × String))
      (deserialize : List (String × String) → JSValue)

/-- One own property of a route instance: its name, its annotation when it
has one, and its current value. -/
structure Field where
  propName : String
  meta : Option Metadata
  value : JSValue

/-- A route instance: the pattern reachable through the prototype under
the route key (none when the type was never registered), and the ordered
own properties. -/
structure Obj where
  routeKey : Option String
  fields : List Field

/-- A route class: the registered pattern and name (none when
unregistered) and the fields a fresh instance starts with. -/
structure RouteClass where
  routeKey : Option String
  nameKey : Option String
  fresh : List Field

/-- Modelled builtin: property read tmp[key]; a missing property reads as
undefined. -/
def getField (o : Obj) (k : String) : JSValue :=
  match o.fields.find? (fun f => f.propName = k) with
  | none => .undef
  | some f => f.value

/-- Updates the first field of the given name, or appends a plain property
when none exists, as assignment on a JavaScript object does. -/
def setFieldList : List Field → String → JSValue → List Field
  | [], k, v => [⟨k, none, v⟩]
  | f :: fs, k, v =>
    if f.propName = k then ⟨f.propName, f.meta, v⟩ :: fs
    else f :: setFieldList fs k v

/-- Modelled builtin: property write tmp[key] = v. -/
def setField (o : Obj) (k : String) (v : JSValue) : Obj :=
  ⟨o.routeKey, setFieldList o.fields k v⟩

/-- The annotated fields of an instance with their values, the data the
round-trip claim compares. -/
def annotatedValues (o : Obj) : List (String × JSValue) :=
  o.fields.filterMap fun f =>
    match f.meta with
    | some _ => some (f.propName, f.value)
    | none => none

/-- Errors the library throws.  parseError is Could not parse URL to
route; missingPathField and missingQueryField carry the external key the
message interpolates (the query message actually stringifies the pair of
key and dataType, which this model reduces to the key); typeError stands
for the TypeError of assertIsRoute and for the TypeError of enumerating an
undefined group; uriError is the URIError of decodeURIComponent. -/
inductive RoutingError where
  | typeError
  | parseError
  | missingPathField (key : String)
  | missingQueryField (key : String)
  | patternUnfulfilled
  | uriError
deriving DecidableEq, Repr

/-! ## Pattern compiler (index.ts lines 266 to 267)

The code builds
  escapeRegExp(pattern).replace(/\\\{(.*?)\\\}/g, "(?<$1>[^/?]+)")
and appends (?:\?([^#]*))?.  Escaping makes every pattern character
literal, then each brace pair with its lazily matched content becomes a
named capture group of one-or-more characters other than slash and
question mark.  The token list below is that regular expression: literal
runs and capture groups, matched left to right with greedy backtracking,
searched at each start offset from the left (RegExp.exec is unanchored),
its trailing optional group splitting off the raw query string. -/

/-- One token of the compiled pattern. -/
inductive Tok where
  | lit (s : List Char)
  | cap (name : String)
deriving DecidableEq, Repr

/-- Flushes the pending literal accumulator (kept reversed) onto a token
list. -/
def emitLit (acc : List Char) (ts : List Tok) : List Tok :=
  match acc with
  | [] => ts
  | _ => .lit acc.reverse :: ts

/-- Scanner for tokenize: the first argument is none in a literal run or
some reversed-name inside a brace pair; a brace pair never closed falls
back to literal text, and the lazy content of a closed pair runs to the
first closing brace. -/
def tokAux : Option (List Char) → List Char → List Char → List Tok
  | none, acc, [] => emitLit acc []
  | none, acc, c :: rest =>
    if c = '{' then tokAux (some []) acc rest
    else tokAux none (c :: acc) rest
  | some nm, acc, [] => emitLit (nm ++ '{' :: acc) []
  | some nm, acc, c :: rest =>
    if c = '}' then emitLit acc (.cap (String.mk nm.reverse) :: tokAux none [] rest)
    else tokAux (some (c :: nm)) acc rest

/-- The compiled pattern of a pattern string. -/
def tokenize (cs : List Char) : List Tok :=
  tokAux none [] cs

/-- The pattern text a token stands for. -/
def flatTok : Tok → List Char
  | .lit l => l
  | .cap n => '{' :: (n.data ++ ['}'])

/-- The pattern text of a token list. -/
def flatToks (ts : List Tok) : List Char :=
  ts.flatMap flatTok

/-- Characters a capture group may consume: the class excluding slash and
question mark. -/
def capChar (c : Char) : Bool :=
  c ≠ '/' ∧ c ≠ '?'

/-- The candidate splits a greedy one-or-more capture tries, longest
first: every nonempty prefix of the maximal run of capture characters. -/
def capCandidates (s : List Char) : List (List Char × List Char) :=
  let run := s.takeWhile capChar
  let tail := s.dropWhile capChar
  (List.range run.length).map fun i =>
    (run.take (run.length - i), run.drop (run.length - i) ++ tail)

/-- Greedy backtracking match of the path tokens against a prefix of the
input, returning the named captures in pattern order and the unconsumed
remainder. -/
def matchPath : List Tok → List Char → Option (List (String × List Char) × List Char)
  | [], s => some ([], s)
  | .lit l :: ts, s =>
    if l.isPrefixOf s then matchPath ts (s.drop l.length) else none
  | .cap n :: ts, s =>
    firstSome (capCandidates s) fun cr =>
      (matchPath ts cr.2).map fun gr => ((n, cr.1) :: gr.1, gr.2)

/-- Modelled builtin: the unanchored RegExp search, trying each start
offset from the left. -/
def execSearch (toks : List Tok) : List Char → Option (List (String × List Char) × List Char)
  | [] => matchPath toks []
  | c :: rest =>
    match matchPath toks (c :: rest) with
    | some r => some r
    | none => execSearch toks rest

/-- The full compiled-regex match: named captures as strings plus the
optionally captured raw query string, which consumes a question mark and
runs to a hash or the end. -/
def execCompiled (toks : List Tok) (url : List Char) :
    Option (List (String × String) × Option (List Char)) :=
  (execSearch toks url).map fun gr =>
    (gr.1.map (fun nv => (nv.1, String.mk nv.2)),
     match gr.2 with
     | '?' :: r => some (r.takeWhile (fun c => c ≠ '#'))
     | _ => none)

/-! ## Serializer (index.ts: toRelativeUrl, toRelativePath) -/

/-- A value in the collected query parameter map: a string or an array of
strings, as in the Record of string-or-string-array of the source. -/
inductive QueryVal where
  | str (s : String)
  | arr (elems : List String)
deriving DecidableEq, Repr

/-- Source toRelativePath: substitutes each collected path parameter into
the pattern with String.replace (first occurrence only), throws when an
opening brace remains, then builds the query string through URLSearchParams
with set for plain values and append for each array element, appending it
after a question mark only when nonempty. -/
def toRelativePath (pattern : String) (pathParams : List (String × String))
    (queryParams : Option (List (String × QueryVal))) : Except RoutingError String :=
  let url := pathParams.foldl
    (fun u kv => replaceFirstL u ('{' :: (kv.1.data ++ ['}'])) (encodeURIComponentL kv.2.data))
    pattern.data
  if url.contains '{' then .error .patternUnfulfilled
  else
    match queryParams with
    | some qps =>
      let urlParams := qps.foldl
        (fun ps kv =>
          match kv.2 with
          | .arr vs => vs.foldl (fun ps2 v => appendParam ps2 kv.1 v) ps
          | .str v => setParam ps kv.1 v) []
      let searchSegment := urlencodedSerialize urlParams
      if searchSegment = "" then .ok (String.mk url)
      else .ok (String.mk url ++ "?" ++ searchSegment)
    | none => .ok (String.mk url)

/-- Source toRelativeUrl, collection phase: walks the own properties in
order, skips unannotated fields and loosely-null values, stringifies plain
path values under the declared or own key, merges serde output with
Object.assign, and for plain query fields stores the empty string when the
declared kind is Boolean and the value is loosely neither null nor false,
otherwise the stringified value. -/
def collectParams (fields : List Field) : List (String × String) × List (String × QueryVal) :=
  fields.foldl
    (fun acc f =>
      match f.meta with
      | none => acc
      | some m =>
        if jsLooseNull f.value then acc
        else
          match m with
          | .path pk => (setAssoc acc.1 (pk.getD f.propName) (jsToString f.value), acc.2)
          | .pathSerde ser _ => (assignEntries acc.1 (ser f.value), acc.2)
          | .query pk dt =>
            let key := pk.getD f.propName
            if dt = some .boolean ∧ ¬ jsLooseNull f.value ∧ ¬ jsLooseEqFalse f.value then
              (acc.1, setAssoc acc.2 key (.str ""))
            else
              (acc.1, setAssoc acc.2 key (.str (jsToString f.value)))
          | .querySerde ser _ =>
            (acc.1, assignEntries acc.2 ((ser f.value).map fun kv => (kv.1, QueryVal.str kv.2))))
    ([], [])

/-- Source toRelativeUrl: collect the parameter maps, then serialize
against the explicit route or the route key of the instance.  Calling it
on an unregistered instance without an explicit route reaches
String.replace on undefined, a TypeError. -/
def toRelativeUrl (obj : Obj) (route : Option String) : Except RoutingError String :=
  let pq := collectParams obj.fields
  match route.orElse (fun _ => obj.routeKey) with
  | none => .error .typeError
  | some pat => toRelativePath pat pq.1 (some pq.2)

/-! ## Deserializer (index.ts: resolveFieldsMetadata, fromUrl) -/

/-- Resolved path field entry: an external key for a plain annotation or
the deserialize function of a serde annotation. -/
inductive PathFieldInfo where
  | key (externalKey : String)
  | deser (f : List (String × String) → JSValue)

/-- Resolved query field entry: external key and declared kind for a plain
annotation, or the deserialize function of a serde annotation. -/
inductive QueryFieldInfo where
  | keyed (externalKey : String) (dataType : Option DataKind)
  | deser (f : List (String × String) → JSValue)

/-- Source resolveFieldsMetadata: walks the own properties in order and
splits the annotated ones into path entries and query entries keyed by
property name (property names of one object are unique, so the object
writes of the source are appends here). -/
def resolveFieldsMetadata (fields : List Field) :
    List (String × PathFieldInfo) × List (String × QueryFieldInfo) :=
  fields.foldl
    (fun acc f =>
      match f.meta with
      | none => acc
      | some (.path pk) => (acc.1 ++ [(f.propName, .key (pk.getD f.propName))], acc.2)
      | some (.pathSerde _ de) => (acc.1 ++ [(f.propName, .deser de)], acc.2)
      | some (.query pk dt) => (acc.1, acc.2 ++ [(f.propName, .keyed (pk.getD f.propName) dt)])
      | some (.querySerde _ de) => (acc.1, acc.2 ++ [(f.propName, .deser de)]))
    ([], [])

/-- Source fromUrl, path loop: a plain entry reads its named capture; an
absent capture is tolerated only when the fresh instance value is not
loosely null, else the missing-path-field error names the external key; a
captured value is percent-decoded (URIError possible) and assigned; a
serde entry receives all captures. -/
def applyPathFields : List (String × PathFieldInfo) → List (String × String) → Obj →
    Except RoutingError Obj
  | [], _, tmp => .ok tmp
  | (key, .key extKey) :: rest, groups, tmp =>
    match groups.lookup extKey with
    | none =>
      if jsLooseNull (getField tmp key) then .error (.missingPathField extKey)
      else applyPathFields rest groups tmp
    | some rv =>
      match decodeURIComponent rv with
      | none => .error .uriError
      | some dv => applyPathFields rest groups (setField tmp key (.str dv))
  | (key, .deser f) :: rest, groups, tmp =>
    applyPathFields rest groups (setField tmp key (f groups))

/-- Source fromUrl, query loop: a Boolean-kind entry is assigned the
presence of its key; otherwise an absent value is tolerated only when the
fresh instance value is not strictly undefined, else the
missing-query-field error; a present value is assigned as a string; a
serde entry receives the whole query parameter collection. -/
def applyQueryFields : List (String × QueryFieldInfo) → List (String × String) → Obj →
    Except RoutingError Obj
  | [], _, tmp => .ok tmp
  | (key, .keyed extKey dt) :: rest, qps, tmp =>
    if dt = some .boolean then
      applyQueryFields rest qps (setField tmp key (.bool (searchParamsGet qps extKey).isSome))
    else
      match searchParamsGet qps extKey with
      | none =>
        if getField tmp key = .undef then .error (.missingQueryField extKey)
        else applyQueryFields rest qps tmp
      | some v => applyQueryFields rest qps (setField tmp key (.str v))
  | (key, .deser f) :: rest, qps, tmp =>
    applyQueryFields rest qps (setField tmp key (f qps))

/-- Source fromUrl: assert a registered route when no explicit pattern is
given, build the fresh instance, compile the pattern, match it against the
URL (Could not parse URL to route on failure), split off the raw query
string, then run the path loop and the query loop on the fresh instance. -/
def fromUrl (type : RouteClass) (path : String) (route : Option String) :
    Except RoutingError Obj :=
  if route = none ∧ type.routeKey = none then .error .typeError
  else
    let tmp : Obj := ⟨type.routeKey, type.fresh⟩
    let pf := resolveFieldsMetadata tmp.fields
    let pat := (route.orElse (fun _ => type.routeKey)).getD ""
    match execCompiled (tokenize pat.data) path.data with
    | none => .error .parseError
    | some gq =>
      let queryParams :=
        match gq.2 with
        | some qs => parseUrlencoded qs
        | none => []
      match applyPathFields pf.1 gq.1 tmp with
      | .error e => .error e
      | .ok tmp1 => applyQueryFields pf.2 queryParams tmp1

/-! ## Route registry (index.ts: route, definedRoutes, from) -/

/-- The process-wide knownRoutes table: groups to names to candidate
lists, each level in insertion order as JavaScript object keys are. -/
abbrev Registry := List (String × List (String × List RouteClass))

/-- Source route decorator: ensures the group and name entries exist,
attaches pattern and name to the constructor, and appends the constructor
to the candidate list.  Returns the updated registry and the registered
class. -/
def route (reg : Registry) (name pat : String) (group : Option String)
    (fields : List Field) : Registry × RouteClass :=
  let g := group.getD ""
  let cls : RouteClass := ⟨some pat, some name, fields⟩
  let reg2 :=
    match reg.lookup g with
    | none => reg ++ [(g, [(name, [cls])])]
    | some names =>
      let names2 :=
        match names.lookup name with
        | none => names ++ [(name, [cls])]
        | some cands => setAssoc names name (cands ++ [cls])
      setAssoc reg g names2
  (reg2, cls)

/-- Source definedRoutes: the table entry of a group, undefined (none)
when the group was never registered. -/
def definedRoutes (reg : Registry) (group : String) : Option (List (String × List RouteClass)) :=
  reg.lookup group

/-- Iteration of the source from over the entries of a group: every
candidate under every name, in table order, each parse failure swallowed. -/
def tryCandidates (url : String) : List (String × List RouteClass) → Option (String × Obj)
  | [] => none
  | (name, cands) :: rest =>
    match firstSome cands (fun c => (fromUrl c url none).toOption) with
    | some obj => some (name, obj)
    | none => tryCandidates url rest

/-- Source from: enumerating the entries of an unregistered group throws a
TypeError (Object.entries of undefined); otherwise the first successful
candidate with its name, or null. -/
def fromRoute (reg : Registry) (url : String) (group : String) :
    Except RoutingError (Option (String × Obj)) :=
  match definedRoutes reg group with
  | none => .error .typeError
  | some entries => .ok (tryCandidates url entries)

/-- Candidates of a group flattened in iteration order: names in first
registration order, candidates within a name in registration order. -/
def flattenRoutes (entries : List (String × List RouteClass)) : List (String × RouteClass) :=
  entries.flatMap fun nc => nc.2.map fun c => (nc.1, c)

/-- Modelled from the spec: reverse lookup as the claim words it, the
first candidate of the flattened list whose parse succeeds, every failure
a soft skip, none when all candidates fail. -/
def reverseLookupSpec (url : String) : List (String × RouteClass) → Option (String × Obj)
  | [] => none
  | (name, c) :: rest =>
    match fromUrl c url none with
    | .ok obj => some (name, obj)
    | .error _ => reverseLookupSpec url rest

/-! ## Projections and example route types used by the claims -/

/-- The thrown error of a call, none when it returned normally. -/
def errOf : Except RoutingError α → Option RoutingError
  | .error e => some e
  | .ok _ => none

/-- The returned URL of a serializer call, none when it threw. -/
def okStr : Except RoutingError String → Option String
  | .ok s => some s
  | .error _ => none

/-- Example route type of the spec: pattern /example/{name} with one plain
path field name carrying no default. -/
def exampleCls : RouteClass :=
  ⟨some "/example/{name}", some "example", [⟨"name", some (.path none), .undef⟩]⟩

/-- Route class family: one Boolean-kind plain query field f under
external key k with default d. -/
def boolCls (pat k : String) (d : JSValue) : RouteClass :=
  ⟨some pat, none, [⟨"f", some (.query (some k) (some .boolean)), d⟩]⟩

/-- Instance of the boolCls family with current value v. -/
def boolObj (pat k : String) (v : JSValue) : Obj :=
  ⟨some pat, [⟨"f", some (.query (some k) (some .boolean)), v⟩]⟩

/-- Route class family: one plain query field f under external key k with
no declared kind and default d. -/
def plainQueryCls (pat k : String) (d : JSValue) : RouteClass :=
  ⟨some pat, none, [⟨"f", some (.query (some k) none), d⟩]⟩

/-- Instance of the plainQueryCls family with current value v. -/
def plainQueryObj (pat k : String) (v : JSValue) : Obj :=
  ⟨some pat, [⟨"f", some (.query (some k) none), v⟩]⟩

/-- Route class family for default tolerance: pattern /d with a plain path
field p under external key pk (no such placeholder exists, so its capture
is always absent), a plain query field q under qk, and a Boolean-kind
query field b under bk, with the given defaults. -/
def defaultsCls (dp dq db : JSValue) : RouteClass :=
  ⟨some "/d", none,
    [⟨"p", some (.path (some "pk")), dp⟩,
     ⟨"q", some (.query (some "qk") none), dq⟩,
     ⟨"b", some (.query (some "bk") (some .boolean)), db⟩]⟩

/-- Registry built by three interleaved registrations: name a with
pattern /x, then name b with pattern /b, then name a again with
pattern /b. -/
def regInterleaved : Registry :=
  (route (route (route [] "a" "/x" none []).1 "b" "/b" none []).1 "a" "/b" none []).1

/-! ## Token-level view of substitution and matching

toRelativePath substitutes on the raw pattern string while fromUrl
matches its tokenized form; the definitions below give the common
token-level view both are related to. -/

/-- Names of the capture groups of a compiled pattern, in order. -/
def capNames (ts : List Tok) : List String :=
  ts.filterMap fun t =>
    match t with
    | .cap n => some n
    | .lit _ => none

/-- Shape of one token for the substitution argument: literal text is
brace-free and capture names are brace-free. -/
def flatOkTok : Tok → Bool
  | .lit l => !(l.contains '{')
  | .cap n => !(n.data.contains '{') && !(n.data.contains '}')

/-- Every token of the list is brace-clean. -/
def flatOk (ts : List Tok) : Bool :=
  ts.all flatOkTok

/-- One substitution step at the token level: the first capture named k
becomes the literal replacement. -/
def replaceFirstCap : List Tok → String → List Char → List Tok
  | [], _, _ => []
  | .cap n :: rest, k, v =>
    if n = k then .lit v :: rest else .cap n :: replaceFirstCap rest k v
  | .lit l :: rest, k, v => .lit l :: replaceFirstCap rest k v

/-- The whole substitution phase of toRelativePath at the token level:
each collected path parameter replaces the first capture under its key by
the percent-encoded value. -/
def substAll (ts : List Tok) (params : List (String × String)) : List Tok :=
  params.foldl (fun acc kv => replaceFirstCap acc kv.1 (encodeURIComponentL kv.2.data)) ts

/-- Separation shape under which greedy matching is invertible: every
capture is the last token or is followed by a literal whose first
character a capture cannot consume. -/
def capSeparated : List Tok → Bool
  | [] => true
  | .cap _ :: [] => true
  | .cap _ :: .lit l :: ts =>
    (match l.head? with
     | some c => !capChar c
     | none => false) && capSeparated (.lit l :: ts)
  | .cap _ :: .cap _ :: _ => false
  | .lit _ :: ts => capSeparated ts

/-- The fully substituted pattern text: literals verbatim, every capture
replaced by its value under the parameter map. -/
def renderSub (params : List (String × List Char)) : List Tok → List Char
  | [] => []
  | .lit l :: ts => l ++ renderSub params ts
  | .cap n :: ts => ((params.lookup n).getD []) ++ renderSub params ts

/-- The named captures that matching the fully substituted pattern
produces, in pattern order. -/
def groupsOf (params : List (String × List Char)) (ts : List Tok) : List (String × List Char) :=
  ts.filterMap fun t =>
    match t with
    | .cap n => some (n, (params.lookup n).getD [])
    | .lit _ => none


/-! ## Round-trip shapes (claim C1)

The round-trip theorem quantifies over instances whose annotated fields
have the shapes the serializer and deserializer preserve: plain path
fields holding nonempty ASCII strings, plain query fields holding ASCII
strings, Boolean-kind query fields holding true.  The definitions below
name the per-field shape, the collected parameter lists, the resolved
field lists and the produced URL text, all read off the source functions
they characterize. -/

/-- All characters of the list are ASCII. -/
def asciiL (cs : List Char) : Bool :=
  cs.all (fun c => c.toNat < 128)

/-- Whether a value is a nonempty ASCII string. -/
def strOk : JSValue → Bool
  | .str s => !s.data.isEmpty && asciiL s.data
  | _ => false

/-- Whether a value is an ASCII string. -/
def strOkQ : JSValue → Bool
  | .str s => asciiL s.data
  | _ => false

/-- Whether a value is the boolean true. -/
def boolTrue : JSValue → Bool
  | .bool b => b
  | _ => false

/-- Shape of one field under which the round trip restores it: an
unannotated field is unconstrained, a plain path field holds a nonempty
ASCII string and its external key contains no closing brace, a plain
query field has an ASCII external key and holds true when Boolean-kind
and an ASCII string otherwise; serde fields and other value shapes are
out of scope. -/
def roundShape (f : Field) : Bool :=
  match f.meta with
  | none => true
  | some (Metadata.path pk) =>
    strOk f.value && !((pk.getD f.propName).data.contains '}')
  | some (Metadata.query pk dt) =>
    asciiL (pk.getD f.propName).data &&
      (if dt = some DataKind.boolean then boolTrue f.value else strOkQ f.value)
  | some _ => false

/-- The fresh instance a route class builds: the same properties with
undefined values. -/
def freshOf (flds : List Field) : List Field :=
  flds.map fun f => ⟨f.propName, f.meta, JSValue.undef⟩

/-- External keys of the plain path fields in property order. -/
def pathKeys (flds : List Field) : List String :=
  flds.filterMap fun f =>
    match f.meta with
    | some (Metadata.path pk) => some (pk.getD f.propName)
    | _ => none

/-- External keys of the plain query fields in property order. -/
def queryKeys (flds : List Field) : List String :=
  flds.filterMap fun f =>
    match f.meta with
    | some (Metadata.query pk _) => some (pk.getD f.propName)
    | _ => none

/-- The path parameter map collectParams builds from plain path fields
with non-null values stringified. -/
def pathPairs (flds : List Field) : List (String × String) :=
  flds.filterMap fun f =>
    match f.meta with
    | some (Metadata.path pk) => some (pk.getD f.propName, jsToString f.value)
    | _ => none

/-- The query parameter map collectParams builds from plain query fields,
as strings: the empty string for a Boolean-kind field, the stringified
value otherwise. -/
def queryStrPairs (flds : List Field) : List (String × String) :=
  flds.filterMap fun f =>
    match f.meta with
    | some (Metadata.query pk dt) =>
      some (pk.getD f.propName,
        if dt = some DataKind.boolean then "" else jsToString f.value)
    | _ => none

/-- The path entries resolveFieldsMetadata builds, in property order. -/
def pathInfos (flds : List Field) : List (String × PathFieldInfo) :=
  flds.filterMap fun f =>
    match f.meta with
    | some (Metadata.path pk) => some (f.propName, PathFieldInfo.key (pk.getD f.propName))
    | some (Metadata.pathSerde _ de) => some (f.propName, PathFieldInfo.deser de)
    | _ => none

/-- The query entries resolveFieldsMetadata builds, in property order. -/
def queryInfos (flds : List Field) : List (String × QueryFieldInfo) :=
  flds.filterMap fun f =>
    match f.meta with
    | some (Metadata.query pk dt) =>
      some (f.propName, QueryFieldInfo.keyed (pk.getD f.propName) dt)
    | some (Metadata.querySerde _ de) => some (f.propName, QueryFieldInfo.deser de)
    | _ => none

/-- The assignments the path loop performs on a round trip: each plain
path field receives its original value back. -/
def pathUpds (flds : List Field) : List (String × JSValue) :=
  flds.filterMap fun f =>
    match f.meta with
    | some (Metadata.path _) => some (f.propName, f.value)
    | _ => none

/-- The assignments the query loop performs on a round trip: each plain
query field receives its original value back. -/
def queryUpds (flds : List Field) : List (String × JSValue) :=
  flds.filterMap fun f =>
    match f.meta with
    | some (Metadata.query _ _) => some (f.propName, f.value)
    | _ => none

/-- The URL text toRelativeUrl produces for a round-trip instance: the
pattern with each placeholder replaced by the percent-encoded value,
then the form-urlencoded query pairs after a question mark when any
exist. -/
def roundUrlData (pat : String) (flds : List Field) : List Char :=
  renderSub ((pathPairs flds).map fun kv => (kv.1, encodeURIComponentL kv.2.data))
      (tokenize pat.data) ++
    (if queryStrPairs flds = [] then []
     else '?' :: urlencodedSerializeL (queryStrPairs flds))

/-- A concrete round-trip instance: a path field, a plain query field and
a Boolean-kind query field. -/
def roundFlds : List Field :=
  [⟨"id", some (Metadata.path none), .str "42"⟩,
   ⟨"q", some (Metadata.query none (some DataKind.other)), .str "x"⟩,
   ⟨"b", some (Metadata.query none (some DataKind.boolean)), .bool true⟩]

/-! ## Theorems -/

theorem reverseLookupSpec_name_block (url name : String) (cands : List RouteClass)
    (tail : List (String × RouteClass)) :
    reverseLookupSpec url (cands.map (fun c => (name, c)) ++ tail) =
      (match firstSome cands (fun c => (fromUrl c url none).toOption) with
       | some obj => some (name, obj)
       | none => reverseLookupSpec url tail) := by
  induction cands with
  | nil => simp [firstSome]
  | cons c cs ih =>
    simp only [List.map_cons, List.cons_append, reverseLookupSpec, firstSome]
    cases h : fromUrl c url none with
    | ok obj => simp [Except.toOption, h]
    | error e => simpa [Except.toOption, h] using ih

theorem tryCandidates_eq_spec (url : String) (entries : List (String × List RouteClass)) :
    tryCandidates url entries = reverseLookupSpec url (flattenRoutes entries) := by
  induction entries with
  | nil => rfl
  | cons e rest ih =>
    obtain ⟨name, cands⟩ := e
    simp only [tryCandidates, flattenRoutes, List.flatMap_cons]
    rw [show (cands.map fun c => (name, c)) ++ rest.flatMap (fun nc => nc.2.map fun c => (nc.1, c)) =
          (cands.map fun c => (name, c)) ++ flattenRoutes rest from rfl,
        reverseLookupSpec_name_block]
    cases firstSome cands (fun c => (fromUrl c url none).toOption) <;> simp [ih]

/-- C8 amended: on a registered group, from returns exactly the
spec-modelled reverse lookup over the candidates flattened in iteration
order: names by first registration, candidates within a name by
registration order, first success wins, every failure is a soft skip, and
null is returned exactly when every flattened candidate fails. -/
theorem C8_amended (reg : Registry) (url group : String)
    (entries : List (String × List RouteClass))
    (h : definedRoutes reg group = some entries) :
    fromRoute reg url group = .ok (reverseLookupSpec url (flattenRoutes entries)) := by
  unfold fromRoute
  rw [h]
  exact congrArg Except.ok (tryCandidates_eq_spec url entries)

/-- C8 amended witness: the interleaved registry at URL /b. -/
theorem C8_amended_witness :
    fromRoute regInterleaved "/b" "" =
      .ok (reverseLookupSpec "/b" (flattenRoutes
        [("a", [⟨some "/x", some "a", []⟩, ⟨some "/b", some "a", []⟩]),
         ("b", [⟨some "/b", some "b", []⟩])])) :=
  C8_amended regInterleaved "/b" ""
    [("a", [⟨some "/x", some "a", []⟩, ⟨some "/b", some "a", []⟩]),
     ("b", [⟨some "/b", some "b", []⟩])] rfl

theorem applyPathFields_ne_parseError (pfs : List (String × PathFieldInfo))
    (groups : List (String × String)) (tmp : Obj) :
    applyPathFields pfs groups tmp ≠ .error .parseError := by
  induction pfs generalizing tmp with
  | nil => simp [applyPathFields]
  | cons p rest ih =>
    obtain ⟨key, info⟩ := p
    cases info with
    | key ext =>
      simp only [applyPathFields]
      cases hg : groups.lookup ext with
      | none =>
        by_cases hn : jsLooseNull (getField tmp key) = true
        · simp [hg, hn]
        · simp [hg, hn, ih]
      | some rv =>
        cases hd : decodeURIComponent rv with
        | none => simp [hg, hd]
        | some dv => simp [hg, hd, ih]
    | deser f => exact ih _

theorem applyQueryFields_ne_parseError (qfs : List (String × QueryFieldInfo))
    (qps : List (String × String)) (tmp : Obj) :
    applyQueryFields qfs qps tmp ≠ .error .parseError := by
  induction qfs generalizing tmp with
  | nil => simp [applyQueryFields]
  | cons p rest ih =>
    obtain ⟨key, info⟩ := p
    cases info with
    | keyed ext dt =>
      simp only [applyQueryFields]
      by_cases hb : dt = some DataKind.boolean
      · simp [hb, ih]
      · simp only [hb, if_false]
        cases hg : searchParamsGet qps ext with
        | none =>
          by_cases hu : getField tmp key = JSValue.undef
          · simp [hg, hu]
          · simp [hg, hu, ih]
        | some v => simp [hg, ih]
    | deser f => exact ih _

theorem execSearch_none_iff (toks : List Tok) (s : List Char) :
    execSearch toks s = none ↔ ∀ i, i ≤ s.length → matchPath toks (s.drop i) = none := by
  induction s with
  | nil =>
    simp only [execSearch, List.drop_nil, List.length_nil]
    constructor
    · intro h i _
      exact h
    · intro h
      exact h 0 (Nat.le_refl 0)
  | cons c rest ih =>
    simp only [execSearch]
    cases h : matchPath toks (c :: rest) with
    | some r =>
      constructor
      · intro hc
        cases hc
      · intro hall
        have h0 := hall 0 (Nat.zero_le _)
        rw [List.drop_zero, h] at h0
        cases h0
    | none =>
      rw [ih]
      constructor
      · intro h1 i hi
        match i with
        | 0 => simpa using h
        | j + 1 =>
          simp only [List.drop_succ_cons]
          exact h1 j (by simpa using hi)
      · intro hall i hi
        have := hall (i + 1) (by simpa using Nat.succ_le_succ hi)
        simpa using this

/-- C7 amended: with a registered pattern, fromUrl throws ParseError
(could not parse URL to route) exactly when no start offset of the URL
lets the compiled pattern match, i.e. matching is an unanchored substring
search rather than an all-or-nothing anchored match; the loops after a
successful match never produce this error. -/
theorem C7_amended (t : RouteClass) (pat url : String) (h : t.routeKey = some pat) :
    (fromUrl t url none = .error .parseError ↔
      ∀ i, i ≤ url.data.length → matchPath (tokenize pat.data) (url.data.drop i) = none) := by
  rw [← execSearch_none_iff]
  unfold fromUrl
  rw [if_neg (by simp [h])]
  simp only [Option.orElse_none, Option.orElse, h, Option.getD_some, execCompiled]
  cases hm : execSearch (tokenize pat.data) url.data with
  | none => simp [Option.map_none']
  | some gr =>
    simp only [Option.map_some']
    constructor
    · intro hc
      exfalso
      split at hc
      · rename_i e heq
        injection hc with he
        rw [he] at heq
        exact applyPathFields_ne_parseError _ _ _ heq
      · exact applyQueryFields_ne_parseError _ _ _ hc
    · intro hc
      cases hc

theorem data_mk (cs : List Char) : (String.mk cs).data = cs := rfl

theorem mk_append_cons_ne_empty (xs ys : List Char) (c : Char) :
    String.mk (xs ++ c :: ys) ≠ "" := by
  intro hcon
  have hd : xs ++ c :: ys = [] := congrArg String.data hcon
  simp at hd

theorem takeWhile_all (p : Char → Bool) (l : List Char) (h : ∀ c ∈ l, p c = true) :
    l.takeWhile p = l := by
  induction l with
  | nil => rfl
  | cons c rest ih =>
    rw [List.takeWhile_cons, h c (List.mem_cons_self c rest)]
    exact congrArg (c :: ·) (ih fun d hd => h d (List.mem_cons_of_mem c hd))

theorem isPrefixOf_append_self (l xs : List Char) : l.isPrefixOf (l ++ xs) = true := by
  induction l with
  | nil => simp [List.isPrefixOf]
  | cons c rest ih => simp [List.isPrefixOf, ih]

theorem not_mem_of_contains_false {c : Char} {l : List Char}
    (h : l.contains c = false) : ∀ d ∈ l, d ≠ c := by
  intro d hd he
  subst he
  rw [List.contains_eq_any_beq] at h
  have ha : l.any (fun x => d == x) = true := List.any_eq_true.mpr ⟨d, hd, by simp⟩
  rw [ha] at h
  cases h

theorem tokAux_no_brace (cs : List Char) (acc : List Char) (h : ∀ c ∈ cs, c ≠ '{') :
    tokAux none acc cs = emitLit (cs.reverse ++ acc) [] := by
  induction cs generalizing acc with
  | nil => simp [tokAux]
  | cons c rest ih =>
    rw [tokAux, if_neg (h c (List.mem_cons_self c rest))]
    rw [ih (c :: acc) (fun d hd => h d (List.mem_cons_of_mem c hd))]
    simp

theorem matchPath_lit_pref (cs rest : List Char) (h : ∀ c ∈ cs, c ≠ '{') :
    matchPath (tokenize cs) (cs ++ rest) = some ([], rest) := by
  rw [tokenize, tokAux_no_brace cs [] h, List.append_nil]
  cases hcs : cs with
  | nil => simp [emitLit, matchPath]
  | cons a as =>
    have hrev : cs.reverse = cs.reverse := rfl
    rw [← hcs]
    cases hr : cs.reverse with
    | nil =>
      rw [List.reverse_eq_nil_iff] at hr
      rw [hr] at hcs
      cases hcs
    | cons b bs =>
      show matchPath (Tok.lit (b :: bs).reverse :: []) (cs ++ rest) = some ([], rest)
      rw [← hr, List.reverse_reverse]
      rw [matchPath, if_pos (isPrefixOf_append_self cs rest)]
      rw [List.drop_left]
      rfl

theorem execSearch_of_matchPath (toks : List Tok) (s : List Char)
    (r : List (String × List Char) × List Char) (h : matchPath toks s = some r) :
    execSearch toks s = some r := by
  cases s with
  | nil => rw [execSearch, h]
  | cons c rest => rw [execSearch, h]

theorem execCompiled_no_brace_query (pat qs : List Char)
    (hpat : ∀ c ∈ pat, c ≠ '{') (hqs : ∀ c ∈ qs, c ≠ '#') :
    execCompiled (tokenize pat) (pat ++ '?' :: qs) = some ([], some qs) := by
  rw [execCompiled, execSearch_of_matchPath _ _ _ (matchPath_lit_pref pat ('?' :: qs) hpat)]
  simp only [Option.map_some']
  have ht : qs.takeWhile (fun c => decide (c ≠ '#')) = qs :=
    takeWhile_all _ qs fun c hc => by simpa using hqs c hc
  simp
  exact fun x hx => hqs x hx

theorem execCompiled_no_brace_bare (pat : List Char) (hpat : ∀ c ∈ pat, c ≠ '{') :
    execCompiled (tokenize pat) pat = some ([], none) := by
  have h := matchPath_lit_pref pat [] hpat
  rw [List.append_nil] at h
  rw [execCompiled, execSearch_of_matchPath _ _ _ h]
  rfl

theorem toRelativePath_single_query (pat k v : String)
    (hpat : pat.data.contains '{' = false) :
    toRelativePath pat [] (some [(k, .str v)]) =
      .ok (pat ++ "?" ++ formUrlEncode k ++ "=" ++ formUrlEncode v) := by
  have hser : urlencodedSerialize [(k, v)] =
      String.mk (formUrlEncodeL k.data ++ '=' :: formUrlEncodeL v.data) := rfl
  unfold toRelativePath
  simp only [List.foldl_nil, List.foldl_cons, setParam, hser]
  rw [if_neg (by intro hcon; rw [hpat] at hcon; cases hcon),
    if_neg (mk_append_cons_ne_empty _ _ '=')]
  apply congrArg Except.ok
  apply String.ext
  have hq : ("?" : String).data = ['?'] := rfl
  have he : ("=" : String).data = ['='] := rfl
  simp [String.data_append, data_mk, formUrlEncode, hq, he]

theorem collectParams_boolObj (pat k : String) (b : Bool) :
    collectParams (boolObj pat k (.bool b)).fields =
      ([], [(k, QueryVal.str (if b then "" else "false"))]) := by
  cases b <;>
    simp [boolObj, collectParams, jsLooseNull, jsLooseEqFalse, jsToString, setAssoc]

theorem toRelativeUrl_boolObj (pat k : String) (b : Bool)
    (hpat : pat.data.contains '{' = false) :
    toRelativeUrl (boolObj pat k (.bool b)) none =
      .ok (pat ++ "?" ++ formUrlEncode k ++ "=" ++ formUrlEncode (if b then "" else "false")) := by
  unfold toRelativeUrl
  rw [collectParams_boolObj]
  simp only [boolObj, Option.orElse_none, Option.orElse]
  exact toRelativePath_single_query pat k (if b then "" else "false") hpat

theorem fromUrl_boolCls_query (pat k qs : String) (d : JSValue)
    (hpat : pat.data.contains '{' = false) (hqs : qs.data.contains '#' = false) :
    (fromUrl (boolCls pat k d) (pat ++ "?" ++ qs) none).map annotatedValues =
      .ok [("f", JSValue.bool (searchParamsGet (parseUrlencoded qs.data) k).isSome)] := by
  unfold fromUrl
  rw [if_neg (by simp [boolCls])]
  have hdata : (pat ++ "?" ++ qs).data = pat.data ++ '?' :: qs.data := by
    have hq : ("?" : String).data = ['?'] := rfl
    simp [String.data_append, hq]
  simp only [boolCls, Option.orElse_none, Option.orElse, Option.getD_some]
  rw [hdata, execCompiled_no_brace_query pat.data qs.data
    (not_mem_of_contains_false hpat) (not_mem_of_contains_false hqs)]
  simp only [resolveFieldsMetadata, applyPathFields, applyQueryFields, setField, setFieldList,
    List.foldl_cons, List.foldl_nil]
  rfl

theorem fromUrl_boolCls_bare (pat k : String) (d : JSValue)
    (hpat : pat.data.contains '{' = false) :
    (fromUrl (boolCls pat k d) pat none).map annotatedValues =
      .ok [("f", JSValue.bool false)] := by
  unfold fromUrl
  rw [if_neg (by simp [boolCls])]
  simp only [boolCls, Option.orElse_none, Option.orElse, Option.getD_some]
  rw [execCompiled_no_brace_bare pat.data (not_mem_of_contains_false hpat)]
  simp only [resolveFieldsMetadata, applyPathFields, applyQueryFields, setField, setFieldList,
    List.foldl_cons, List.foldl_nil]
  rfl

/-- C3 counterexample: a Boolean-kind query flag set to true serializes
through URLSearchParams.toString, which always writes the equals sign, so
the URL is /example?happy= and not the claimed bare-key form
/example?happy. -/
theorem C3_counterexample :
    toRelativeUrl (boolObj "/example" "happy" (.bool true)) none = .ok "/example?happy=" ∧
      okStr (toRelativeUrl (boolObj "/example" "happy" (.bool true)) none) ≠
        some "/example?happy" := by
  exact ⟨rfl, by decide⟩

/-- C3 amended: a Boolean-kind plain query field set to true serializes as
the key with an empty value (...?happy= rather than bare ...?happy), and
fromUrl assigns true exactly when the key is present in the query string
regardless of its value, false when it is absent. -/
theorem C3_amended (pat k qs : String) (d : JSValue)
    (hpat : pat.data.contains '{' = false) (hqs : qs.data.contains '#' = false) :
    toRelativeUrl (boolObj pat k (.bool true)) none =
      .ok (pat ++ "?" ++ formUrlEncode k ++ "=" ++ "") ∧
    (fromUrl (boolCls pat k d) (pat ++ "?" ++ qs) none).map annotatedValues =
      .ok [("f", JSValue.bool (searchParamsGet (parseUrlencoded qs.data) k).isSome)] ∧
    (fromUrl (boolCls pat k d) pat none).map annotatedValues =
      .ok [("f", JSValue.bool false)] :=
  ⟨toRelativeUrl_boolObj pat k true hpat,
   fromUrl_boolCls_query pat k qs d hpat hqs,
   fromUrl_boolCls_bare pat k d hpat⟩

/-- C3 amended witness: pattern /example, key happy, query happy=banana
(present with an arbitrary value) gives true; the bare URL gives false. -/
theorem C3_amended_witness :
    toRelativeUrl (boolObj "/example" "happy" (.bool true)) none =
      .ok ("/example" ++ "?" ++ formUrlEncode "happy" ++ "=" ++ "") ∧
    (fromUrl (boolCls "/example" "happy" .undef) ("/example" ++ "?" ++ "happy=banana") none).map
        annotatedValues =
      .ok [("f", JSValue.bool (searchParamsGet (parseUrlencoded "happy=banana".data)
        "happy").isSome)] ∧
    (fromUrl (boolCls "/example" "happy" .undef) "/example" none).map annotatedValues =
      .ok [("f", JSValue.bool false)] :=
  C3_amended "/example" "happy" "happy=banana" .undef rfl rfl

/-- C9: a Boolean-kind plain query field whose current value is exactly
false is not omitted and not presence-encoded: the serializer takes the
stringification branch and emits key=false into the query string. -/
theorem C9_false_not_omitted (pat k : String) (hpat : pat.data.contains '{' = false) :
    toRelativeUrl (boolObj pat k (.bool false)) none =
      .ok (pat ++ "?" ++ formUrlEncode k ++ "=" ++ "false") :=
  toRelativeUrl_boolObj pat k false hpat

/-- C9 witness: pattern /b and key flag give /b?flag=false. -/
theorem C9_false_not_omitted_witness :
    toRelativeUrl (boolObj "/b" "flag" (.bool false)) none = .ok "/b?flag=false" :=
  C9_false_not_omitted "/b" "flag" rfl

/-- C7 amended witness: the example type at the unmatched URL zz. -/
theorem C7_amended_witness :
    fromUrl exampleCls "zz" none = .error .parseError :=
  (C7_amended exampleCls "/example/{name}" "zz" rfl).mpr (by
    intro i hi
    have h2 : ("zz".data.length) = 2 := rfl
    rw [h2] at hi
    interval_cases i <;> rfl)

/-- C2 counterexample: with pattern /a/{x}/{x} and path parameter x bound
to v, replacing every literal occurrence of the placeholder would yield
/a/v/v, but the code replaces only the first occurrence, a brace remains
and PatternUnfulfilledError is thrown. -/
theorem C2_counterexample :
    toRelativePath "/a/{x}/{x}" [("x", "v")] none = .error .patternUnfulfilled ∧
      okStr (toRelativePath "/a/{x}/{x}" [("x", "v")] none) ≠ some "/a/v/v" := by
  exact ⟨rfl, by decide⟩

/-- C4 counterexample: deserializing /example/ against /example/{name}
does not throw MissingPathFieldError; the compiled capture group needs at
least one character, so the regular expression itself fails and the parse
error is thrown. -/
theorem C4_counterexample :
    fromUrl exampleCls "/example/" none = .error .parseError ∧
      RoutingError.parseError ≠ RoutingError.missingPathField "name" := by
  exact ⟨rfl, by decide⟩

/-- C4 amended: /example/ against /example/{name} throws the parse error
(could not parse URL to route); /example/Basic succeeds with name Basic;
MissingPathFieldError naming the external key is thrown when a successful
match lacks the capture, as with the explicit pattern /example. -/
theorem C4_amended :
    fromUrl exampleCls "/example/" none = .error .parseError ∧
      (fromUrl exampleCls "/example/Basic" none).map annotatedValues =
        .ok [("name", JSValue.str "Basic")] ∧
      fromUrl exampleCls "/example" (some "/example") =
        .error (.missingPathField "name") := by
  exact ⟨rfl, rfl, rfl⟩

/-- C5 counterexample: a plain query field holding the array a, b is
stringified by value.toString() before it reaches the query map, so the
serialized URL carries the single joined entry k=a%2Cb and not the
repeated keys k=a&k=b. -/
theorem C5_counterexample :
    toRelativeUrl (plainQueryObj "/q" "k" (.arr ["a", "b"])) none = .ok "/q?k=a%2Cb" ∧
      okStr (toRelativeUrl (plainQueryObj "/q" "k" (.arr ["a", "b"])) none) ≠
        some "/q?k=a&k=b" := by
  exact ⟨rfl, by decide⟩

/-- C5 amended: an array-valued entry of the collected query map does
produce repeated keys in toRelativePath, but toRelativeUrl stringifies the
array value of a plain query field before insertion, producing one joined
entry. -/
theorem C5_amended :
    toRelativePath "/q" [] (some [("k", QueryVal.arr ["a", "b"])]) = .ok "/q?k=a&k=b" ∧
      toRelativeUrl (plainQueryObj "/q" "k" (.arr ["a", "b"])) none = .ok "/q?k=a%2Cb" := by
  exact ⟨rfl, rfl⟩

/-- C1 counterexample: an instance of a registered type whose only
annotated field, a Boolean-kind query field with no default, is set to the
non-null value false serializes to /b?flag=false, and deserializing that
URL assigns true by key presence, so the round trip is not deep-equal on
the annotated field. -/
theorem C1_counterexample :
    toRelativeUrl (boolObj "/b" "flag" (.bool false)) none = .ok "/b?flag=false" ∧
      (fromUrl (boolCls "/b" "flag" .undef) "/b?flag=false" none).map annotatedValues =
        .ok [("f", JSValue.bool true)] ∧
      annotatedValues (boolObj "/b" "flag" (.bool false)) = [("f", JSValue.bool false)] ∧
      ([("f", JSValue.bool true)] : List (String × JSValue)) ≠ [("f", JSValue.bool false)] := by
  exact ⟨rfl, rfl, rfl, by decide⟩

/-- C6 counterexample: a plain query field whose default on the fresh
instance is null, deserialized from a URL without its key, does not throw
MissingQueryFieldError; the strict undefined test tolerates the null
default and preserves it. -/
theorem C6_counterexample :
    (fromUrl (plainQueryCls "/c" "k" .null) "/c" none).map annotatedValues =
      .ok [("f", JSValue.null)] ∧
      errOf (fromUrl (plainQueryCls "/c" "k" .null) "/c" none) ≠
        some (.missingQueryField "k") := by
  exact ⟨rfl, by decide⟩

/-- C6 amended: on an absent source, a plain path field tolerates any
loosely non-null default and throws MissingPathFieldError otherwise, a
plain query field tolerates any default other than strict undefined (a
null default also suppresses the error) and throws MissingQueryFieldError
exactly when the default is undefined, and a Boolean-kind query field is
assigned false regardless of its default; tolerated defaults are
preserved. -/
theorem C6_amended (dp dq db : JSValue) :
    fromUrl (defaultsCls dp dq db) "/d" none =
      if jsLooseNull dp then .error (.missingPathField "pk")
      else if dq = .undef then .error (.missingQueryField "qk")
      else .ok ⟨some "/d",
        [⟨"p", some (.path (some "pk")), dp⟩,
         ⟨"q", some (.query (some "qk") none), dq⟩,
         ⟨"b", some (.query (some "bk") (some .boolean)), .bool false⟩]⟩ := by
  cases dp <;> cases dq <;> rfl

/-- C7 counterexample: the compiled pattern is searched unanchored, so the
URL /x/example/Basic/y, which does not conform to the whole pattern
/example/{name}, still deserializes by matching the substring
/example/Basic instead of being rejected. -/
theorem C7_counterexample :
    (fromUrl exampleCls "/x/example/Basic/y" none).map annotatedValues =
      .ok [("name", JSValue.str "Basic")] ∧
      errOf (fromUrl exampleCls "/x/example/Basic/y" none) ≠ some .parseError := by
  exact ⟨rfl, by decide⟩

/-- C8 counterexample: with registrations interleaved across names (a at
/x, then b at /b, then a at /b), the URL /b fails on the first registered
candidate and succeeds on the second registered candidate, which carries
name b, yet from iterates name-first and returns name a. -/
theorem C8_counterexample :
    fromUrl (RouteClass.mk (some "/x") (some "a") []) "/b" none = .error .parseError ∧
      (fromUrl (RouteClass.mk (some "/b") (some "b") []) "/b" none).map annotatedValues =
        .ok [] ∧
      (fromRoute regInterleaved "/b" "").map (Option.map Prod.fst) = .ok (some "a") ∧
      ("a" : String) ≠ "b" := by
  exact ⟨rfl, rfl, rfl, by decide⟩

/-- C10: reverse lookup on a group under which no route was ever
registered throws (the model TypeError of enumerating the undefined entry
that definedRoutes returns) instead of returning null. -/
theorem C10_unregistered_group (reg : Registry) (url group : String)
    (h : definedRoutes reg group = none) :
    fromRoute reg url group = .error .typeError := by
  unfold fromRoute
  rw [h]

/-- C10 witness: the empty registry and an arbitrary group. -/
theorem C10_unregistered_group_witness :
    fromRoute [] "/x" "nope" = .error .typeError :=
  C10_unregistered_group [] "/x" "nope" rfl

/-! ## Substitution lemmas -/

theorem flatToks_nil : flatToks [] = [] := rfl

theorem flatToks_cons (t : Tok) (ts : List Tok) :
    flatToks (t :: ts) = flatTok t ++ flatToks ts := by
  simp [flatToks]

theorem flatToks_emitLit (acc : List Char) (ts : List Tok) :
    flatToks (emitLit acc ts) = acc.reverse ++ flatToks ts := by
  cases acc with
  | nil => simp [emitLit]
  | cons a as => simp [emitLit, flatToks_cons, flatTok]

theorem flatToks_tokAux (cs : List Char) :
    (∀ acc, flatToks (tokAux none acc cs) = acc.reverse ++ cs) ∧
    (∀ nm acc, flatToks (tokAux (some nm) acc cs) =
      acc.reverse ++ '{' :: (nm.reverse ++ cs)) := by
  induction cs with
  | nil =>
    constructor
    · intro acc
      rw [tokAux, flatToks_emitLit, flatToks_nil]
    · intro nm acc
      rw [tokAux, flatToks_emitLit, flatToks_nil]
      simp
  | cons c rest ih =>
    obtain ⟨ihn, ihs⟩ := ih
    constructor
    · intro acc
      rw [tokAux]
      by_cases hc : c = '{'
      · rw [if_pos hc, ihs [] acc]
        simp [hc]
      · rw [if_neg hc, ihn (c :: acc)]
        simp
    · intro nm acc
      rw [tokAux]
      by_cases hc : c = '}'
      · rw [if_pos hc, flatToks_emitLit, flatToks_cons, ihn [], flatTok]
        simp [hc]
      · rw [if_neg hc, ihs (c :: nm) acc]
        simp
theorem flatToks_tokenize (cs : List Char) : flatToks (tokenize cs) = cs := by
  simpa using (flatToks_tokAux cs).1 []

theorem replaceFirstL_skip (l s ps rep : List Char) (p0 : Char)
    (hl : ∀ c ∈ l, c ≠ p0) :
    replaceFirstL (l ++ s) (p0 :: ps) rep = l ++ replaceFirstL s (p0 :: ps) rep := by
  induction l with
  | nil => simp
  | cons c rest ih =>
    rw [List.cons_append, replaceFirstL, if_neg]
    · rw [ih (fun d hd => hl d (List.mem_cons_of_mem c hd))]
      rfl
    · have hc : c ≠ p0 := hl c (List.mem_cons_self c rest)
      simp [List.isPrefixOf]
      intro he
      exact absurd he.symm hc

theorem cap_pat_no_pref : ∀ (k n : List Char), '}' ∉ k → '}' ∉ n → k ≠ n →
    ∀ xs ys : List Char, (k ++ '}' :: xs).isPrefixOf (n ++ '}' :: ys) = false := by
  intro k
  induction k with
  | nil =>
    intro n hk hn hne xs ys
    cases n with
    | nil => exact absurd rfl hne
    | cons c n' =>
      simp only [List.nil_append, List.cons_append, List.isPrefixOf]
      have hb : ('}' == c) = false := by
        simp only [beq_eq_false_iff_ne]
        intro he
        exact hn (he ▸ List.mem_cons_self c n')
      simp [hb]
  | cons a k' ih =>
    intro n hk hn hne xs ys
    cases n with
    | nil =>
      simp only [List.cons_append, List.nil_append, List.isPrefixOf]
      have hb : (a == '}') = false := by
        simp only [beq_eq_false_iff_ne]
        intro he
        exact hk (he ▸ List.mem_cons_self a k')
      simp [hb]
    | cons c n' =>
      by_cases hac : a = c
      · subst hac
        simp only [List.cons_append, List.isPrefixOf, beq_self_eq_true, Bool.true_and]
        exact ih n' (fun h => hk (List.mem_cons_of_mem a h))
          (fun h => hn (List.mem_cons_of_mem a h))
          (fun h => hne (h ▸ rfl)) xs ys
      · have hb : (a == c) = false := by simp [hac]
        simp [List.isPrefixOf, hb]

theorem flatOk_cons {t : Tok} {ts : List Tok} (h : flatOk (t :: ts) = true) :
    flatOkTok t = true ∧ flatOk ts = true := by
  simpa [flatOk] using h

theorem flatOkTok_lit {l : List Char} (h : flatOkTok (Tok.lit l) = true) :
    l.contains '{' = false := by
  simpa [flatOkTok] using h

theorem flatOkTok_cap {n : String} (h : flatOkTok (Tok.cap n) = true) :
    n.data.contains '{' = false ∧ n.data.contains '}' = false := by
  simpa [flatOkTok] using h

theorem replaceFirstL_here (pat s rep : List Char) (hne : pat ≠ []) :
    replaceFirstL (pat ++ s) pat rep = rep ++ s := by
  cases pat with
  | nil => exact absurd rfl hne
  | cons p ps =>
    rw [List.cons_append, replaceFirstL, if_pos]
    · rw [← List.cons_append, List.drop_left]
    · rw [← List.cons_append]
      exact isPrefixOf_append_self _ _

theorem replaceFirstL_flat (ts : List Tok) (k : String) (v : List Char)
    (hok : flatOk ts = true) (hk : '}' ∉ k.data) :
    replaceFirstL (flatToks ts) ('{' :: (k.data ++ ['}'])) v =
      flatToks (replaceFirstCap ts k v) := by
  induction ts with
  | nil => rfl
  | cons t rest ih =>
    obtain ⟨hokt, hokr⟩ := flatOk_cons hok
    cases t with
    | lit l =>
      have hl : ∀ c ∈ l, c ≠ '{' := not_mem_of_contains_false (flatOkTok_lit hokt)
      rw [flatToks_cons, flatTok, replaceFirstL_skip l _ _ v '{' hl, ih hokr,
        replaceFirstCap, flatToks_cons, flatTok]
    | cap n =>
      obtain ⟨hn1, hn2⟩ := flatOkTok_cap hokt
      have hn : '}' ∉ n.data := fun hm =>
        absurd rfl (not_mem_of_contains_false hn2 '}' hm)
      by_cases hnk : n = k
      · subst hnk
        rw [flatToks_cons, flatTok, replaceFirstL_here _ _ _ (by simp),
          replaceFirstCap, if_pos rfl, flatToks_cons, flatTok]
      · have hkn : k.data ≠ n.data := fun h => hnk (String.ext h).symm
        rw [show flatToks (Tok.cap n :: rest) =
            '{' :: (n.data ++ '}' :: flatToks rest) from by
          rw [flatToks_cons, flatTok]
          simp]
        rw [replaceFirstL, if_neg]
        · rw [show n.data ++ '}' :: flatToks rest =
              (n.data ++ ['}']) ++ flatToks rest from by simp]
          rw [replaceFirstL_skip (n.data ++ ['}']) _ _ v '{' ?hnb, ih hokr,
            replaceFirstCap, if_neg hnk, flatToks_cons, flatTok]
          · simp
          case hnb =>
            intro c hc he
            rcases List.mem_append.mp hc with hcm | hcm
            · exact not_mem_of_contains_false hn1 c hcm he
            · rw [List.mem_singleton.mp hcm] at he
              cases he
        · simp only [List.isPrefixOf, beq_self_eq_true, Bool.true_and]
          rw [cap_pat_no_pref k.data n.data hk hn hkn]
          simp

theorem flatOk_replaceFirstCap (ts : List Tok) (k : String) (v : List Char)
    (hok : flatOk ts = true) (hv : v.contains '{' = false) :
    flatOk (replaceFirstCap ts k v) = true := by
  induction ts with
  | nil => exact hok
  | cons t rest ih =>
    obtain ⟨hokt, hokr⟩ := flatOk_cons hok
    cases t with
    | lit l =>
      rw [replaceFirstCap]
      simpa [flatOk, hokt] using ih hokr
    | cap n =>
      rw [replaceFirstCap]
      by_cases hnk : n = k
      · rw [if_pos hnk]
        have hvt : flatOkTok (Tok.lit v) = true := by simpa [flatOkTok] using hv
        simpa [flatOk, hvt] using hokr
      · rw [if_neg hnk]
        simpa [flatOk, hokt] using ih hokr

theorem encode_no_brace (cs : List Char) :
    (encodeURIComponentL cs).contains '{' = false := by
  rw [List.contains_eq_any_beq, List.any_eq_false]
  intro c hc he
  have he2 : c = '{' := Eq.symm (by simpa using he)
  subst he2
  rw [encodeURIComponentL] at hc
  rcases List.mem_flatMap.mp hc with ⟨d, _, hd⟩
  by_cases hu : unreservedURI d = true
  · rw [if_pos hu] at hd
    rw [← List.mem_singleton.mp hd] at hu
    exact absurd hu (by decide)
  · rw [if_neg hu] at hd
    rcases List.mem_flatMap.mp hd with ⟨b, _, hb⟩
    rw [percentByte] at hb
    have h16a : (b / 16) % 16 < 16 := Nat.mod_lt _ (by omega)
    have h16b : b % 16 < 16 := Nat.mod_lt _ (by omega)
    have hhex : ∀ m : Fin 16, hexDigit m.val ≠ '{' := by decide
    simp only [List.mem_cons, List.not_mem_nil, or_false] at hb
    rcases hb with hb | hb | hb
    · exact absurd hb (by decide)
    · exact hhex ⟨(b / 16) % 16, h16a⟩ hb.symm
    · exact hhex ⟨b % 16, h16b⟩ hb.symm

theorem foldl_replaceFirstL_flat (params : List (String × String)) (ts : List Tok)
    (hok : flatOk ts = true) (hkeys : ∀ kv ∈ params, '}' ∉ kv.1.data) :
    params.foldl
      (fun u kv => replaceFirstL u ('{' :: (kv.1.data ++ ['}'])) (encodeURIComponentL kv.2.data))
      (flatToks ts) = flatToks (substAll ts params) := by
  induction params generalizing ts with
  | nil => rfl
  | cons kv rest ih =>
    rw [List.foldl_cons,
      replaceFirstL_flat ts kv.1 _ hok (hkeys kv (List.mem_cons_self kv rest))]
    exact ih (replaceFirstCap ts kv.1 _)
      (flatOk_replaceFirstCap _ _ _ hok (encode_no_brace _))
      (fun p hp => hkeys p (List.mem_cons_of_mem _ hp))

theorem capNames_lit_cons (l : List Char) (ts : List Tok) :
    capNames (Tok.lit l :: ts) = capNames ts := by
  simp [capNames]

theorem capNames_cap_cons (n : String) (ts : List Tok) :
    capNames (Tok.cap n :: ts) = n :: capNames ts := by
  simp [capNames]

theorem mem_capNames (n : String) (ts : List Tok) :
    n ∈ capNames ts ↔ Tok.cap n ∈ ts := by
  constructor
  · intro h
    rcases List.mem_filterMap.mp h with ⟨t, ht, he⟩
    cases t with
    | lit l => cases he
    | cap m =>
      have : m = n := by simpa using he
      exact this ▸ ht
  · intro h
    exact List.mem_filterMap.mpr ⟨Tok.cap n, h, rfl⟩

theorem capNames_replaceFirstCap (ts : List Tok) (k : String) (v : List Char) :
    capNames (replaceFirstCap ts k v) = (capNames ts).erase k := by
  induction ts with
  | nil => rfl
  | cons t rest ih =>
    cases t with
    | lit l =>
      rw [replaceFirstCap, capNames_lit_cons, capNames_lit_cons, ih]
    | cap n =>
      by_cases hnk : n = k
      · subst hnk
        rw [replaceFirstCap, if_pos rfl, capNames_lit_cons, capNames_cap_cons,
          List.erase_cons_head]
      · rw [replaceFirstCap, if_neg hnk, capNames_cap_cons, capNames_cap_cons, ih,
          List.erase_cons_tail]
        simp [hnk]

theorem replaceFirstCap_not_mem (ts : List Tok) (k : String) (v : List Char)
    (h : k ∉ capNames ts) : replaceFirstCap ts k v = ts := by
  induction ts with
  | nil => rfl
  | cons t rest ih =>
    cases t with
    | lit l =>
      rw [replaceFirstCap, ih (fun hm => h ((capNames_lit_cons l rest) ▸ hm))]
    | cap n =>
      have hmem : k ∉ n :: capNames rest := (capNames_cap_cons n rest) ▸ h
      have hnk : n ≠ k := by
        intro he
        subst he
        exact hmem (List.mem_cons_self n _)
      have htail : k ∉ capNames rest := fun hm => hmem (List.mem_cons_of_mem n hm)
      rw [replaceFirstCap, if_neg hnk, ih htail]

theorem substAll_nil_toks (params : List (String × String)) :
    substAll [] params = [] := by
  induction params with
  | nil => rfl
  | cons kv rest ih => simpa [substAll, replaceFirstCap] using ih

theorem substAll_lit_cons (l : List Char) (ts : List Tok) (params : List (String × String)) :
    substAll (Tok.lit l :: ts) params = Tok.lit l :: substAll ts params := by
  induction params generalizing ts with
  | nil => rfl
  | cons kv rest ih =>
    rw [show substAll (Tok.lit l :: ts) (kv :: rest) =
        substAll (replaceFirstCap (Tok.lit l :: ts) kv.1 (encodeURIComponentL kv.2.data))
          rest from rfl]
    rw [replaceFirstCap]
    exact ih (replaceFirstCap ts kv.1 _)

theorem substAll_cap_cons (n : String) (ts : List Tok) (params : List (String × String))
    (hnot : n ∉ capNames ts) :
    substAll (Tok.cap n :: ts) params =
      (match params.lookup n with
       | some v => Tok.lit (encodeURIComponentL v.data)
       | none => Tok.cap n) :: substAll ts params := by
  induction params generalizing ts with
  | nil => rfl
  | cons kv rest ih =>
    obtain ⟨k1, v1⟩ := kv
    rw [show substAll (Tok.cap n :: ts) ((k1, v1) :: rest) =
        substAll (replaceFirstCap (Tok.cap n :: ts) k1 (encodeURIComponentL v1.data))
          rest from rfl]
    rw [replaceFirstCap]
    by_cases hk : k1 = n
    · rw [if_pos hk.symm, substAll_lit_cons]
      have hlk : ((k1, v1) :: rest).lookup n = some v1 := by
        simp [List.lookup, hk]
      rw [hlk]
      have htail : substAll ts ((k1, v1) :: rest) = substAll ts rest := by
        rw [show substAll ts ((k1, v1) :: rest) =
            substAll (replaceFirstCap ts k1 (encodeURIComponentL v1.data)) rest from rfl,
          replaceFirstCap_not_mem ts k1 _ (by rw [hk]; exact hnot)]
      rw [htail]
    · rw [if_neg (fun he => hk he.symm)]
      have hnot2 : n ∉ capNames (replaceFirstCap ts k1 (encodeURIComponentL v1.data)) := by
        rw [capNames_replaceFirstCap]
        intro hm
        exact hnot (List.mem_of_mem_erase hm)
      rw [ih _ hnot2]
      have hne : (n == k1) = false := by
        simp only [beq_eq_false_iff_ne]
        exact fun he => hk he.symm
      have hlk : ((k1, v1) :: rest).lookup n = rest.lookup n := by
        simp [List.lookup, hne]
      rw [hlk]
      rfl

theorem capNames_substAll (ts : List Tok) (params : List (String × String)) :
    capNames (substAll ts params) =
      params.foldl (fun acc kv => acc.erase kv.1) (capNames ts) := by
  induction params generalizing ts with
  | nil => rfl
  | cons kv rest ih =>
    rw [show substAll ts (kv :: rest) =
        substAll (replaceFirstCap ts kv.1 (encodeURIComponentL kv.2.data)) rest from rfl]
    rw [ih, List.foldl_cons, capNames_replaceFirstCap]

theorem foldl_erase_of_covered : ∀ (ks : List (String × String)) (l : List String),
    l.Nodup → (∀ n ∈ l, ∃ kv ∈ ks, kv.1 = n) →
    ks.foldl (fun acc kv => acc.erase kv.1) l = [] := by
  intro ks
  induction ks with
  | nil =>
    intro l _ hcov
    cases l with
    | nil => rfl
    | cons a as =>
      rcases hcov a (List.mem_cons_self a as) with ⟨kv, hm, _⟩
      cases hm
  | cons kv rest ih =>
    intro l hnd hcov
    rw [List.foldl_cons]
    refine ih (l.erase kv.1) (hnd.erase kv.1) ?_
    intro n hn
    have hne : n ≠ kv.1 := ((List.Nodup.mem_erase_iff hnd).mp hn).1
    have hmem : n ∈ l := ((List.Nodup.mem_erase_iff hnd).mp hn).2
    rcases hcov n hmem with ⟨kv2, hm2, he2⟩
    rcases List.mem_cons.mp hm2 with h | h
    · exact absurd (h ▸ he2) (fun hh => hne hh.symm)
    · exact ⟨kv2, h, he2⟩

theorem mem_foldl_erase : ∀ (ks : List (String × String)) (l : List String) (n : String),
    n ∈ l → (∀ kv ∈ ks, kv.1 ≠ n) →
    n ∈ ks.foldl (fun acc kv => acc.erase kv.1) l := by
  intro ks
  induction ks with
  | nil => intro l n hn _; exact hn
  | cons kv rest ih =>
    intro l n hn hnot
    rw [List.foldl_cons]
    refine ih (l.erase kv.1) n ?_ (fun p hp => hnot p (List.mem_cons_of_mem kv hp))
    exact (List.mem_erase_of_ne (Ne.symm (hnot kv (List.mem_cons_self kv rest)))).mpr hn

theorem flat_no_cap_no_brace (ts : List Tok) (hok : flatOk ts = true)
    (hcap : capNames ts = []) : (flatToks ts).contains '{' = false := by
  induction ts with
  | nil => rfl
  | cons t rest ih =>
    obtain ⟨hokt, hokr⟩ := flatOk_cons hok
    cases t with
    | lit l =>
      rw [capNames_lit_cons] at hcap
      rw [flatToks_cons, flatTok, List.contains_eq_any_beq, List.any_append]
      have h1 : l.any (fun x => '{' == x) = false := by
        rw [← List.contains_eq_any_beq]
        exact flatOkTok_lit hokt
      have h2 : (flatToks rest).any (fun x => '{' == x) = false := by
        rw [← List.contains_eq_any_beq]
        exact ih hokr hcap
      rw [h1, h2]
      rfl
    | cap n =>
      rw [capNames_cap_cons] at hcap
      cases hcap

theorem flat_cap_has_brace (ts : List Tok) (n : String) (h : Tok.cap n ∈ ts) :
    (flatToks ts).contains '{' = true := by
  rw [List.contains_eq_any_beq, List.any_eq_true]
  refine ⟨'{', ?_, by simp⟩
  exact List.mem_flatMap.mpr ⟨Tok.cap n, h, List.mem_cons_self _ _⟩

theorem lookup_isSome_of_key (params : List (String × String)) (n : String)
    (h : ∃ kv ∈ params, kv.1 = n) : ∃ v, params.lookup n = some v := by
  induction params with
  | nil =>
    rcases h with ⟨kv, hm, _⟩
    cases hm
  | cons kv rest ih =>
    obtain ⟨k1, v1⟩ := kv
    by_cases hk : (n == k1) = true
    · exact ⟨v1, by simp [List.lookup, hk]⟩
    · rcases h with ⟨kv2, hm2, he2⟩
      rcases List.mem_cons.mp hm2 with hh | hh
      · exfalso
        apply hk
        rw [show k1 = n from by rw [← he2, hh]]
        simp
      · rcases ih ⟨kv2, hh, he2⟩ with ⟨v, hv⟩
        refine ⟨v, ?_⟩
        simp only [List.lookup, hk]
        exact hv

theorem lookup_map_value (params : List (String × String)) (n : String)
    (f : String → List Char) :
    (params.map fun kv => (kv.1, f kv.2)).lookup n = (params.lookup n).map f := by
  induction params with
  | nil => rfl
  | cons kv rest ih =>
    obtain ⟨k1, v1⟩ := kv
    by_cases hk : n == k1
    · simp [List.lookup, hk]
    · simp only [List.map_cons, List.lookup, hk]
      exact ih

theorem flatToks_substAll_renderSub (ts : List Tok) (params : List (String × String))
    (hnodup : (capNames ts).Nodup)
    (hall : ∀ n ∈ capNames ts, ∃ kv ∈ params, kv.1 = n) :
    flatToks (substAll ts params) =
      renderSub (params.map fun kv => (kv.1, encodeURIComponentL kv.2.data)) ts := by
  induction ts with
  | nil => rw [substAll_nil_toks, renderSub, flatToks_nil]
  | cons t rest ih =>
    cases t with
    | lit l =>
      rw [capNames_lit_cons] at hnodup hall
      rw [substAll_lit_cons, flatToks_cons, flatTok, renderSub, ih hnodup hall]
    | cap n =>
      rw [capNames_cap_cons] at hnodup hall
      have hnot : n ∉ capNames rest := (List.nodup_cons.mp hnodup).1
      rw [substAll_cap_cons n rest params hnot]
      rcases lookup_isSome_of_key params n (hall n (List.mem_cons_self n _)) with ⟨v, hv⟩
      rw [hv, flatToks_cons, flatTok, renderSub,
        lookup_map_value params n (fun v => encodeURIComponentL v.data), hv]
      rw [ih (List.nodup_cons.mp hnodup).2
        (fun m hm2 => hall m (List.mem_cons_of_mem n hm2))]
      rfl

theorem flatOk_substAll (ts : List Tok) (params : List (String × String))
    (hok : flatOk ts = true) : flatOk (substAll ts params) = true := by
  induction params generalizing ts with
  | nil => exact hok
  | cons kv rest ih =>
    exact ih (replaceFirstCap ts kv.1 _)
      (flatOk_replaceFirstCap _ _ _ hok (encode_no_brace _))

/-- C2 amended: substitution replaces the first literal occurrence of each
{key} with the percent-encoded value; for a well-formed pattern whose
placeholders are distinct this replaces every placeholder, the result is
the pattern text with each capture replaced by the percent-encoded value
under its key, and PatternUnfulfilledError is thrown exactly when some
placeholder has no parameter under its key (in particular when a required
path field was left null and so produced no parameter); a repeated
placeholder, by contrast, throws even when its key is supplied, because
only its first occurrence is replaced. -/
theorem C2_amended (pat : String) (params : List (String × String))
    (hok : flatOk (tokenize pat.data) = true)
    (hnodup : (capNames (tokenize pat.data)).Nodup)
    (hkeys : ∀ kv ∈ params, '}' ∉ kv.1.data) :
    toRelativePath pat params none =
      if ∀ n ∈ capNames (tokenize pat.data), ∃ kv ∈ params, kv.1 = n then
        .ok (String.mk (renderSub
          (params.map fun kv => (kv.1, encodeURIComponentL kv.2.data))
          (tokenize pat.data)))
      else .error .patternUnfulfilled := by
  have hfold : params.foldl
      (fun u kv => replaceFirstL u ('{' :: (kv.1.data ++ ['}'])) (encodeURIComponentL kv.2.data))
      pat.data = flatToks (substAll (tokenize pat.data) params) := by
    conv_lhs =>
      rw [show pat.data = flatToks (tokenize pat.data) from (flatToks_tokenize pat.data).symm]
    exact foldl_replaceFirstL_flat params (tokenize pat.data) hok hkeys
  unfold toRelativePath
  rw [hfold]
  by_cases hall : ∀ n ∈ capNames (tokenize pat.data), ∃ kv ∈ params, kv.1 = n
  · rw [if_pos hall]
    have hnone : capNames (substAll (tokenize pat.data) params) = [] := by
      rw [capNames_substAll]
      exact foldl_erase_of_covered params _ hnodup hall
    have hnb := flat_no_cap_no_brace _ (flatOk_substAll _ params hok) hnone
    rw [if_neg (by intro hcon; rw [hnb] at hcon; cases hcon)]
    rw [flatToks_substAll_renderSub _ _ hnodup hall]
  · rw [if_neg hall]
    push_neg at hall
    rcases hall with ⟨n, hn, hnone⟩
    have hmem : n ∈ capNames (substAll (tokenize pat.data) params) := by
      rw [capNames_substAll]
      exact mem_foldl_erase params _ n hn hnone
    have hbrace := flat_cap_has_brace _ n ((mem_capNames n _).mp hmem)
    rw [if_pos hbrace]

/-- C2 amended witness: the spec example, pattern /a/{x}/b with x bound to
hello world, yields /a/hello%20world/b. -/
theorem C2_amended_witness :
    toRelativePath "/a/{x}/b" [("x", "hello world")] none = .ok "/a/hello%20world/b" := by
  rw [C2_amended "/a/{x}/b" [("x", "hello world")] rfl (by decide) (by decide)]
  rfl

/-! ## Matcher inversion -/

theorem takeWhile_append_all (p : Char → Bool) (v a : List Char)
    (h : ∀ c ∈ v, p c = true) :
    (v ++ a).takeWhile p = v ++ a.takeWhile p := by
  induction v with
  | nil => rfl
  | cons c rest ih =>
    rw [List.cons_append, List.takeWhile_cons, h c (List.mem_cons_self c rest)]
    rw [ih (fun d hd => h d (List.mem_cons_of_mem c hd))]
    rfl

theorem dropWhile_append_all (p : Char → Bool) (v a : List Char)
    (h : ∀ c ∈ v, p c = true) :
    (v ++ a).dropWhile p = a.dropWhile p := by
  induction v with
  | nil => rfl
  | cons c rest ih =>
    rw [List.cons_append, List.dropWhile_cons, h c (List.mem_cons_self c rest)]
    simp only [if_true]
    exact ih (fun d hd => h d (List.mem_cons_of_mem c hd))

theorem takeWhile_stopped (p : Char → Bool) (a : List Char)
    (h : a = [] ∨ ∃ c r, a = c :: r ∧ p c = false) : a.takeWhile p = [] := by
  rcases h with h | ⟨c, r, he, hp⟩
  · rw [h]
    rfl
  · rw [he, List.takeWhile_cons, hp]
    rfl

theorem dropWhile_stopped (p : Char → Bool) (a : List Char)
    (h : a = [] ∨ ∃ c r, a = c :: r ∧ p c = false) : a.dropWhile p = a := by
  rcases h with h | ⟨c, r, he, hp⟩
  · rw [h]
    rfl
  · rw [he, List.dropWhile_cons, hp]
    simp

theorem firstSome_capCandidates (v after : List Char) (hv : v ≠ [])
    (hcap : ∀ c ∈ v, capChar c = true)
    (hafter : after = [] ∨ ∃ c r, after = c :: r ∧ capChar c = false)
    (f : List Char × List Char → Option β) (b : β) (hf : f (v, after) = some b) :
    firstSome (capCandidates (v ++ after)) f = some b := by
  have hrun : (v ++ after).takeWhile capChar = v := by
    rw [takeWhile_append_all capChar v after hcap, takeWhile_stopped capChar after hafter,
      List.append_nil]
  have htail : (v ++ after).dropWhile capChar = after := by
    rw [dropWhile_append_all capChar v after hcap]
    exact dropWhile_stopped capChar after hafter
  have hcc : capCandidates (v ++ after) =
      (List.range v.length).map
        (fun i => (v.take (v.length - i), v.drop (v.length - i) ++ after)) := by
    unfold capCandidates
    rw [hrun, htail]
  cases hn : v.length with
  | zero => exact absurd (List.length_eq_zero.mp hn) hv
  | succ m =>
    rw [hcc, hn, List.range_succ_eq_map, List.map_cons]
    have htake : v.take (m + 1) = v := by
      rw [← hn]
      exact List.take_length v
    have hdrop : v.drop (m + 1) = [] := by
      rw [← hn]
      exact List.drop_length v
    simp only [Nat.sub_zero, htake, hdrop, List.nil_append]
    rw [firstSome, hf]

theorem capSeparated_lit {l : List Char} {ts : List Tok}
    (h : capSeparated (Tok.lit l :: ts) = true) : capSeparated ts = true := by
  rw [capSeparated] at h
  exact h

theorem matchPath_renderSub (ts : List Tok) (params : List (String × List Char))
    (rest : List Char)
    (hsep : capSeparated ts = true)
    (hvals : ∀ n ∈ capNames ts,
      ∃ v, params.lookup n = some v ∧ v ≠ [] ∧ ∀ c ∈ v, capChar c = true)
    (hrest : rest = [] ∨ ∃ c r, rest = c :: r ∧ capChar c = false) :
    matchPath ts (renderSub params ts ++ rest) = some (groupsOf params ts, rest) := by
  induction ts with
  | nil =>
    rw [renderSub, List.nil_append, matchPath]
    rfl
  | cons t ts' ih =>
    cases t with
    | lit l =>
      have hsep' : capSeparated ts' = true := capSeparated_lit hsep
      have hvals' : ∀ n ∈ capNames ts',
          ∃ v, params.lookup n = some v ∧ v ≠ [] ∧ ∀ c ∈ v, capChar c = true :=
        fun n hn => hvals n ((capNames_lit_cons l ts') ▸ hn)
      rw [renderSub, List.append_assoc, matchPath,
        if_pos (isPrefixOf_append_self _ _), List.drop_left, ih hsep' hvals']
      simp [groupsOf]
    | cap n =>
      rcases hvals n ((capNames_cap_cons n ts') ▸ List.mem_cons_self n _)
        with ⟨v, hlk, hne, hcap⟩
      have hsep' : capSeparated ts' = true := by
        cases ts' with
        | nil => rfl
        | cons t2 ts'' =>
          cases t2 with
          | lit l2 =>
            rw [capSeparated, Bool.and_eq_true] at hsep
            exact hsep.2
          | cap m =>
            rw [capSeparated] at hsep
            cases hsep
      have hvals' : ∀ m ∈ capNames ts',
          ∃ v, params.lookup m = some v ∧ v ≠ [] ∧ ∀ c ∈ v, capChar c = true :=
        fun m hm => hvals m ((capNames_cap_cons n ts') ▸ List.mem_cons_of_mem n hm)
      have hafter : renderSub params ts' ++ rest = [] ∨
          ∃ c r, renderSub params ts' ++ rest = c :: r ∧ capChar c = false := by
        cases ts' with
        | nil =>
          rw [renderSub, List.nil_append]
          exact hrest
        | cons t2 ts'' =>
          cases t2 with
          | lit l2 =>
            rw [capSeparated, Bool.and_eq_true] at hsep
            have hhead := hsep.1
            cases l2 with
            | nil => simp at hhead
            | cons c l2' =>
              right
              refine ⟨c, l2' ++ (renderSub params ts'' ++ rest), ?_, ?_⟩
              · rw [renderSub]
                simp
              · simpa using hhead
          | cap m =>
            rw [capSeparated] at hsep
            cases hsep
      have hf : ((matchPath ts' (renderSub params ts' ++ rest)).map
          (fun gr => ((n, v) :: gr.1, gr.2))) =
            some ((n, v) :: groupsOf params ts', rest) := by
        rw [ih hsep' hvals', Option.map_some']
      rw [renderSub, hlk, Option.getD_some, List.append_assoc, matchPath,
        firstSome_capCandidates v _ hne hcap hafter _ _ hf]
      rw [show groupsOf params (Tok.cap n :: ts') =
          (n, v) :: groupsOf params ts' from by
        simp [groupsOf, hlk]]

/-! ## Encoding round trips -/

theorem hexVal_hexDigit : ∀ m : Fin 16, hexVal (hexDigit m.val) = some m.val := by decide

theorem hex2_round (n : Nat) (h : n < 256) :
    hex2 (hexDigit ((n / 16) % 16)) (hexDigit (n % 16)) = some n := by
  have e1 : (n / 16) % 16 < 16 := Nat.mod_lt _ (by omega)
  have e2 : n % 16 < 16 := Nat.mod_lt _ (by omega)
  have h1 : hexVal (hexDigit ((n / 16) % 16)) = some ((n / 16) % 16) :=
    hexVal_hexDigit ⟨(n / 16) % 16, e1⟩
  have h2 : hexVal (hexDigit (n % 16)) = some (n % 16) :=
    hexVal_hexDigit ⟨n % 16, e2⟩
  simp only [hex2, h1, h2, Option.bind_eq_bind, Option.some_bind, Option.pure_def,
    Option.some.injEq]
  omega

theorem encode_mem_cases (cs : List Char) (c : Char) (hc : c ∈ encodeURIComponentL cs) :
    unreservedURI c = true ∨ c = '%' ∨ ∃ m : Fin 16, c = hexDigit m.val := by
  rw [encodeURIComponentL] at hc
  rcases List.mem_flatMap.mp hc with ⟨d, _, hd⟩
  by_cases hu : unreservedURI d = true
  · rw [if_pos hu] at hd
    left
    rw [List.mem_singleton.mp hd]
    exact hu
  · rw [if_neg hu] at hd
    rcases List.mem_flatMap.mp hd with ⟨b, _, hb⟩
    rw [percentByte] at hb
    simp only [List.mem_cons, List.not_mem_nil, or_false] at hb
    rcases hb with hb | hb | hb
    · right
      left
      exact hb
    · right
      right
      exact ⟨⟨(b / 16) % 16, Nat.mod_lt _ (by omega)⟩, hb⟩
    · right
      right
      exact ⟨⟨b % 16, Nat.mod_lt _ (by omega)⟩, hb⟩

theorem encode_capChar (cs : List Char) : ∀ c ∈ encodeURIComponentL cs, capChar c = true := by
  intro c hc
  rcases encode_mem_cases cs c hc with h | h | ⟨m, h⟩
  · have h1 : c ≠ '/' := fun he => absurd (he ▸ h) (by decide)
    have h2 : c ≠ '?' := fun he => absurd (he ▸ h) (by decide)
    simp [capChar, h1, h2]
  · rw [h]
    decide
  · rw [h]
    exact (by decide : ∀ m : Fin 16, capChar (hexDigit m.val) = true) m

theorem utf8Bytes_ne_nil (c : Char) : utf8Bytes c ≠ [] := by
  intro hcon
  rw [utf8Bytes] at hcon
  split at hcon
  · cases hcon
  · split at hcon
    · cases hcon
    · split at hcon
      · cases hcon
      · cases hcon

theorem encode_nonempty (cs : List Char) (h : cs ≠ []) : encodeURIComponentL cs ≠ [] := by
  cases cs with
  | nil => exact absurd rfl h
  | cons c rest =>
    rw [encodeURIComponentL, List.flatMap_cons]
    intro hcon
    rcases List.append_eq_nil.mp hcon with ⟨h1, _⟩
    by_cases hu : unreservedURI c = true
    · rw [if_pos hu] at h1
      cases h1
    · rw [if_neg hu] at h1
      cases hbytes : utf8Bytes c with
      | nil => exact utf8Bytes_ne_nil c hbytes
      | cons b bs =>
        rw [hbytes, List.flatMap_cons, percentByte] at h1
        cases h1

theorem decodeEscape_ascii (b : Nat) (hb : b < 128) (c1 c2 : Char)
    (hhex : hex2 c1 c2 = some b) (rest : List Char) :
    decodeEscape c1 c2 rest = some (Char.ofNat b, rest) := by
  unfold decodeEscape
  rw [hhex]
  simp only [if_pos hb]

theorem decodeF_cons_nonpct (fuel : Nat) (c : Char) (hc : ¬ c = '%') (cs : List Char) :
    decodeURIComponentLF (fuel + 1) (c :: cs) =
      (decodeURIComponentLF fuel cs).map (fun tl => c :: tl) := by
  rw [decodeURIComponentLF, if_neg hc]

theorem decodeF_cons_pct (fuel : Nat) (ch : Char) (c1 c2 : Char) (cs rest3 : List Char)
    (hesc : decodeEscape c1 c2 cs = some (ch, rest3)) :
    decodeURIComponentLF (fuel + 1) ('%' :: c1 :: c2 :: cs) =
      (decodeURIComponentLF fuel rest3).map (fun tl => ch :: tl) := by
  rw [decodeURIComponentLF, if_pos rfl]
  show (decodeEscapeL (c1 :: c2 :: cs)).bind _ = _
  rw [show decodeEscapeL (c1 :: c2 :: cs) = decodeEscape c1 c2 cs from rfl, hesc,
    Option.some_bind]

theorem decode_encode_lenF (cs : List Char) (h : ∀ c ∈ cs, c.toNat < 128) :
    ∀ fuel, (encodeURIComponentL cs).length ≤ fuel →
    decodeURIComponentLF fuel (encodeURIComponentL cs) = some cs := by
  induction cs with
  | nil =>
    intro fuel _
    cases fuel <;> rfl
  | cons c rest ih =>
    intro fuel hfuel
    have hc : c.toNat < 128 := h c (List.mem_cons_self c rest)
    have hrest := ih (fun d hd => h d (List.mem_cons_of_mem c hd))
    rw [encodeURIComponentL, List.flatMap_cons] at hfuel ⊢
    rw [show rest.flatMap
        (fun c => if unreservedURI c then [c] else (utf8Bytes c).flatMap percentByte) =
      encodeURIComponentL rest from rfl] at hfuel ⊢
    by_cases hu : unreservedURI c = true
    · rw [if_pos hu] at hfuel ⊢
      rw [List.singleton_append]
      rw [List.singleton_append, List.length_cons] at hfuel
      obtain ⟨fuel2, rfl⟩ : ∃ f2, fuel = f2 + 1 := ⟨fuel - 1, by omega⟩
      rw [decodeF_cons_nonpct _ _ (fun he => absurd (he ▸ hu) (by decide)),
        hrest fuel2 (by omega), Option.map_some']
    · rw [if_neg hu] at hfuel ⊢
      have hb : utf8Bytes c = [c.toNat] := by
        rw [utf8Bytes]
        simp [hc]
      rw [hb, List.flatMap_cons, List.flatMap_nil, List.append_nil, percentByte,
        List.cons_append, List.cons_append, List.cons_append, List.nil_append] at hfuel ⊢
      rw [List.length_cons, List.length_cons, List.length_cons] at hfuel
      obtain ⟨fuel2, rfl⟩ : ∃ f2, fuel = f2 + 1 := ⟨fuel - 1, by omega⟩
      rw [decodeF_cons_pct fuel2 (Char.ofNat c.toNat) _ _ _ _
        (decodeEscape_ascii c.toNat (by omega) _ _ (hex2_round c.toNat (by omega)) _)]
      rw [hrest fuel2 (by omega), Option.map_some', Char.ofNat_toNat]

theorem decode_encode_ascii (cs : List Char) (h : ∀ c ∈ cs, c.toNat < 128) :
    decodeURIComponentL (encodeURIComponentL cs) = some cs :=
  decode_encode_lenF cs h _ le_rfl


/-! ## Form-urlencoded round trip -/

theorem hexDigit_ne_plus : ∀ m : Fin 16, ¬ hexDigit m.val = '+' := by decide

theorem hexDigit_ne_amp : ∀ m : Fin 16, ¬ hexDigit m.val = '&' := by decide

theorem hexDigit_ne_eq : ∀ m : Fin 16, ¬ hexDigit m.val = '=' := by decide

theorem lenientEscape_ascii (b : Nat) (hb : b < 128) (c1 c2 : Char)
    (hhex : hex2 c1 c2 = some b) (rest : List Char) :
    lenientEscape (c1 :: c2 :: rest) = some (Char.ofNat b, rest) := by
  rw [show lenientEscape (c1 :: c2 :: rest) = lenientEscape1 c1 c2 rest from rfl]
  unfold lenientEscape1
  rw [hhex]
  simp only [if_pos hb]

theorem pdlF_cons_nonpct (fuel : Nat) (c : Char) (hc : ¬ c = '%') (cs : List Char) :
    percentDecodeLenientF (fuel + 1) (c :: cs) = c :: percentDecodeLenientF fuel cs := by
  rw [percentDecodeLenientF, if_neg hc]

theorem pdlF_cons_pct (fuel : Nat) (ch : Char) (cs cont : List Char)
    (hesc : lenientEscape cs = some (ch, cont)) :
    percentDecodeLenientF (fuel + 1) ('%' :: cs) =
      ch :: percentDecodeLenientF fuel cont := by
  rw [percentDecodeLenientF, if_pos rfl, hesc, Option.map_some', Option.getD_some]

theorem pdl_encode_lenF (cs : List Char) (h : ∀ c ∈ cs, c.toNat < 128) :
    ∀ fuel, (formUrlEncodeL cs).length ≤ fuel →
    percentDecodeLenientF fuel
      ((formUrlEncodeL cs).map (fun c => if c = '+' then ' ' else c)) = cs := by
  induction cs with
  | nil =>
    intro fuel _
    cases fuel <;> rfl
  | cons c rest ih =>
    intro fuel hfuel
    have hc : c.toNat < 128 := h c (List.mem_cons_self c rest)
    have hrest := ih (fun d hd => h d (List.mem_cons_of_mem c hd))
    rw [formUrlEncodeL, List.flatMap_cons] at hfuel ⊢
    rw [show rest.flatMap
        (fun c => if c = ' ' then ['+'] else if formSafe c then [c]
          else (utf8Bytes c).flatMap percentByte) =
      formUrlEncodeL rest from rfl] at hfuel ⊢
    by_cases hsp : c = ' '
    · rw [if_pos hsp] at hfuel ⊢
      rw [List.singleton_append, List.length_cons] at hfuel
      obtain ⟨fuel2, rfl⟩ : ∃ f2, fuel = f2 + 1 := ⟨fuel - 1, by omega⟩
      simp only [List.singleton_append, List.map_cons]
      rw [if_true, pdlF_cons_nonpct _ _ (by decide), hrest fuel2 (by omega), hsp]
    · rw [if_neg hsp] at hfuel ⊢
      by_cases hfs : formSafe c = true
      · rw [if_pos hfs] at hfuel ⊢
        rw [List.singleton_append, List.length_cons] at hfuel
        obtain ⟨fuel2, rfl⟩ : ∃ f2, fuel = f2 + 1 := ⟨fuel - 1, by omega⟩
        simp only [List.singleton_append, List.map_cons]
        have hplus : ¬ c = '+' := fun he => absurd (he ▸ hfs) (by decide)
        have hpct : ¬ c = '%' := fun he => absurd (he ▸ hfs) (by decide)
        rw [if_neg hplus, pdlF_cons_nonpct _ _ hpct, hrest fuel2 (by omega)]
      · rw [if_neg hfs] at hfuel ⊢
        have hb : utf8Bytes c = [c.toNat] := by
          rw [utf8Bytes]
          simp [hc]
        rw [hb, List.flatMap_cons, List.flatMap_nil, List.append_nil, percentByte,
          List.cons_append, List.cons_append, List.cons_append, List.nil_append] at hfuel ⊢
        rw [List.length_cons, List.length_cons, List.length_cons] at hfuel
        obtain ⟨fuel2, rfl⟩ : ∃ f2, fuel = f2 + 1 := ⟨fuel - 1, by omega⟩
        simp only [List.map_cons]
        have e1 : (0 : Nat) < 16 := by omega
        have hd1 : (if hexDigit ((c.toNat / 16) % 16) = '+' then ' '
            else hexDigit ((c.toNat / 16) % 16)) = hexDigit ((c.toNat / 16) % 16) :=
          if_neg (hexDigit_ne_plus ⟨(c.toNat / 16) % 16, Nat.mod_lt _ e1⟩)
        have hd2 : (if hexDigit (c.toNat % 16) = '+' then ' '
            else hexDigit (c.toNat % 16)) = hexDigit (c.toNat % 16) :=
          if_neg (hexDigit_ne_plus ⟨c.toNat % 16, Nat.mod_lt _ e1⟩)
        rw [show ((if ('%' : Char) = '+' then ' ' else '%') : Char) = '%' from rfl, hd1, hd2]
        rw [pdlF_cons_pct fuel2 (Char.ofNat c.toNat) _ _
          (lenientEscape_ascii c.toNat (by omega) _ _ (hex2_round c.toNat (by omega)) _)]
        rw [hrest fuel2 (by omega), Char.ofNat_toNat]

theorem formUrlDecode_encode_ascii (cs : List Char) (h : ∀ c ∈ cs, c.toNat < 128) :
    formUrlDecodeL (formUrlEncodeL cs) = cs := by
  rw [formUrlDecodeL, percentDecodeLenient]
  have hlen := pdl_encode_lenF cs h (formUrlEncodeL cs).length le_rfl
  rw [List.length_map]
  exact hlen

theorem formEncode_mem_cases (cs : List Char) (c : Char) (hc : c ∈ formUrlEncodeL cs) :
    c = '+' ∨ formSafe c = true ∨ c = '%' ∨ ∃ m : Fin 16, c = hexDigit m.val := by
  rw [formUrlEncodeL] at hc
  rcases List.mem_flatMap.mp hc with ⟨d, _, hd⟩
  by_cases hsp : d = ' '
  · rw [if_pos hsp] at hd
    left
    exact List.mem_singleton.mp hd
  · rw [if_neg hsp] at hd
    by_cases hfs : formSafe d = true
    · rw [if_pos hfs] at hd
      right
      left
      rw [List.mem_singleton.mp hd]
      exact hfs
    · rw [if_neg hfs] at hd
      rcases List.mem_flatMap.mp hd with ⟨b, _, hb⟩
      rw [percentByte] at hb
      simp only [List.mem_cons, List.not_mem_nil, or_false] at hb
      rcases hb with hb | hb | hb
      · right; right; left
        exact hb
      · right; right; right
        exact ⟨⟨(b / 16) % 16, Nat.mod_lt _ (by omega)⟩, hb⟩
      · right; right; right
        exact ⟨⟨b % 16, Nat.mod_lt _ (by omega)⟩, hb⟩

theorem formEncode_ne_amp_eq (cs : List Char) :
    ∀ c ∈ formUrlEncodeL cs, c ≠ '&' ∧ c ≠ '=' := by
  intro c hc
  rcases formEncode_mem_cases cs c hc with h | h | h | ⟨m, h⟩
  · rw [h]
    exact ⟨by decide, by decide⟩
  · exact ⟨fun he => absurd (he ▸ h) (by decide), fun he => absurd (he ▸ h) (by decide)⟩
  · rw [h]
    exact ⟨by decide, by decide⟩
  · rw [h]
    exact ⟨hexDigit_ne_amp m, hexDigit_ne_eq m⟩

theorem splitListOn_no_sep (sep : Char) (xs : List Char) (h : ∀ c ∈ xs, ¬ c = sep) :
    splitListOn sep xs = [xs] := by
  induction xs with
  | nil => rfl
  | cons c rest ih =>
    rw [splitListOn, if_neg (h c (List.mem_cons_self c rest)),
      ih (fun d hd => h d (List.mem_cons_of_mem c hd))]

theorem splitListOn_append_sep (sep : Char) (xs rest : List Char)
    (h : ∀ c ∈ xs, ¬ c = sep) :
    splitListOn sep (xs ++ sep :: rest) = xs :: splitListOn sep rest := by
  induction xs with
  | nil =>
    rw [List.nil_append, splitListOn, if_pos rfl]
  | cons c tl ih =>
    rw [List.cons_append, splitListOn, if_neg (h c (List.mem_cons_self c tl)),
      ih (fun d hd => h d (List.mem_cons_of_mem c hd))]



theorem parsePiece_encode (k v : String)
    (hk : ∀ c ∈ k.data, c.toNat < 128) (hv : ∀ c ∈ v.data, c.toNat < 128) :
    parsePiece (formUrlEncodeL k.data ++ '=' :: formUrlEncodeL v.data) = (k, v) := by
  have hne : ∀ c ∈ formUrlEncodeL k.data, (fun c => decide (c ≠ '=')) c = true := by
    intro c hc
    simpa using (formEncode_ne_amp_eq k.data c hc).2
  have ht : List.takeWhile (fun c => decide (c ≠ '='))
      (formUrlEncodeL k.data ++ '=' :: formUrlEncodeL v.data) = formUrlEncodeL k.data := by
    rw [takeWhile_append_all _ _ _ hne, List.takeWhile_cons]
    simp
  have hd : List.dropWhile (fun c => decide (c ≠ '='))
      (formUrlEncodeL k.data ++ '=' :: formUrlEncodeL v.data) =
      '=' :: formUrlEncodeL v.data := by
    rw [dropWhile_append_all _ _ _ hne, List.dropWhile_cons]
    simp
  rw [parsePiece]
  simp only [ht, hd]
  rw [formUrlDecode_encode_ascii k.data hk, formUrlDecode_encode_ascii v.data hv]

theorem formEncode_piece_ne_nil (k v : String) :
    formUrlEncodeL k.data ++ '=' :: formUrlEncodeL v.data ≠ [] := by
  intro hcon
  rcases List.append_eq_nil.mp hcon with ⟨_, h2⟩
  cases h2

theorem filterMap_piece_cons (x : List Char) (l : List (List Char)) (hx : x ≠ []) :
    (x :: l).filterMap (fun piece => if piece = [] then none else some (parsePiece piece)) =
      parsePiece x ::
        l.filterMap (fun piece => if piece = [] then none else some (parsePiece piece)) := by
  simp [hx]

theorem parseUrlencoded_serialize (ps : List (String × String))
    (h : ∀ kv ∈ ps, (∀ c ∈ (kv.1 : String).data, c.toNat < 128) ∧
      (∀ c ∈ (kv.2 : String).data, c.toNat < 128)) :
    parseUrlencoded (urlencodedSerializeL ps) = ps := by
  induction ps with
  | nil => rfl
  | cons kv rest ih =>
    have hkv := h kv (List.mem_cons_self kv rest)
    have hrest := ih (fun x hx => h x (List.mem_cons_of_mem kv hx))
    have hnosep : ∀ c ∈ formUrlEncodeL kv.1.data ++ '=' :: formUrlEncodeL kv.2.data,
        ¬ c = '&' := by
      intro c hc
      rcases (List.mem_append.mp hc) with hc | hc
      · exact (formEncode_ne_amp_eq kv.1.data c hc).1
      · rcases List.mem_cons.mp hc with hc | hc
        · exact fun he => absurd (hc ▸ he) (by decide)
        · exact (formEncode_ne_amp_eq kv.2.data c hc).1
    cases rest with
    | nil =>
      rw [urlencodedSerializeL, parseUrlencoded, splitListOn_no_sep _ _ hnosep]
      rw [filterMap_piece_cons _ _ (formEncode_piece_ne_nil kv.1 kv.2), List.filterMap_nil,
        parsePiece_encode kv.1 kv.2 hkv.1 hkv.2]
    | cons kv2 rest2 =>
      rw [urlencodedSerializeL, parseUrlencoded]
      rw [show formUrlEncodeL kv.1.data ++ '=' :: formUrlEncodeL kv.2.data ++
          '&' :: urlencodedSerializeL (kv2 :: rest2) =
        (formUrlEncodeL kv.1.data ++ '=' :: formUrlEncodeL kv.2.data) ++
          '&' :: urlencodedSerializeL (kv2 :: rest2) from by
        rw [List.append_assoc, List.cons_append]]
      rw [splitListOn_append_sep _ _ _ hnosep]
      rw [filterMap_piece_cons _ _ (formEncode_piece_ne_nil kv.1 kv.2),
        parsePiece_encode kv.1 kv.2 hkv.1 hkv.2]
      rw [show (splitListOn '&' (urlencodedSerializeL (kv2 :: rest2))).filterMap
          (fun piece => if piece = [] then none else some (parsePiece piece)) =
        parseUrlencoded (urlencodedSerializeL (kv2 :: rest2)) from rfl]
      rw [hrest]
      exact fun hcon => by cases hcon


/-! ## Association-list lemmas for the round trip -/

theorem setAssoc_fresh {α : Type} (l : List (String × α)) (k : String) (v : α)
    (h : ∀ kv ∈ l, kv.1 ≠ k) : setAssoc l k v = l ++ [(k, v)] := by
  induction l with
  | nil => rfl
  | cons kv rest ih =>
    obtain ⟨k0, v0⟩ := kv
    rw [setAssoc, if_neg (h (k0, v0) (List.mem_cons_self _ _)), List.cons_append,
      ih (fun p hp => h p (List.mem_cons_of_mem _ hp))]

theorem setParam_fresh (l : List (String × String)) (k v : String)
    (h : ∀ kv ∈ l, kv.1 ≠ k) : setParam l k v = l ++ [(k, v)] := by
  induction l with
  | nil => rfl
  | cons kv rest ih =>
    obtain ⟨k0, v0⟩ := kv
    rw [setParam, if_neg (h (k0, v0) (List.mem_cons_self _ _)), List.cons_append,
      ih (fun p hp => h p (List.mem_cons_of_mem _ hp))]

theorem lookup_of_mem_nodup {β : Type} (l : List (String × β)) (k : String) (v : β)
    (hnd : (l.map Prod.fst).Nodup) (hm : (k, v) ∈ l) : l.lookup k = some v := by
  induction l with
  | nil => cases hm
  | cons kv rest ih =>
    obtain ⟨k0, v0⟩ := kv
    rw [List.map_cons, List.nodup_cons] at hnd
    rcases List.mem_cons.mp hm with hm | hm
    · have hk : k = k0 := congrArg Prod.fst hm
      have hv : v = v0 := congrArg Prod.snd hm
      subst hk
      subst hv
      rw [List.lookup]
      simp
    · have hkmem : k ∈ rest.map Prod.fst := List.mem_map.mpr ⟨(k, v), hm, rfl⟩
      have hne : ¬ k = k0 := fun he => hnd.1 (he ▸ hkmem)
      have hbeq : (k == k0) = false := beq_eq_false_iff_ne.mpr hne
      rw [List.lookup]
      simp only [hbeq]
      exact ih hnd.2 hm

theorem lookup_eq_none_of_not_mem {β : Type} (l : List (String × β)) (k : String)
    (h : k ∉ l.map Prod.fst) : l.lookup k = none := by
  induction l with
  | nil => rfl
  | cons kv rest ih =>
    obtain ⟨k0, v0⟩ := kv
    rw [List.map_cons] at h
    have hne : ¬ k = k0 := fun he => h (he ▸ List.mem_cons_self _ _)
    have hbeq : (k == k0) = false := beq_eq_false_iff_ne.mpr hne
    rw [List.lookup]
    simp only [hbeq]
    exact ih (fun hm => h (List.mem_cons_of_mem _ hm))

theorem lookup_map_val {α β : Type} (l : List (String × α)) (f : α → β) (k : String) :
    ((l.map fun kv => (kv.1, f kv.2)).lookup k) = (l.lookup k).map f := by
  induction l with
  | nil => rfl
  | cons kv rest ih =>
    obtain ⟨k0, v0⟩ := kv
    rw [List.map_cons, List.lookup, List.lookup]
    cases hbeq : k == k0 with
    | true => simp [hbeq]
    | false => simp [hbeq, ih]

theorem searchParamsGet_of_mem_nodup (ps : List (String × String)) (k v : String)
    (hnd : (ps.map Prod.fst).Nodup) (hm : (k, v) ∈ ps) : searchParamsGet ps k = some v := by
  induction ps with
  | nil => cases hm
  | cons kv rest ih =>
    obtain ⟨k0, v0⟩ := kv
    rw [List.map_cons, List.nodup_cons] at hnd
    rcases List.mem_cons.mp hm with hm | hm
    · have hk : k = k0 := congrArg Prod.fst hm
      have hv : v = v0 := congrArg Prod.snd hm
      subst hk
      subst hv
      rw [searchParamsGet, List.find?_cons]
      simp
    · have hkmem : k ∈ rest.map Prod.fst := List.mem_map.mpr ⟨(k, v), hm, rfl⟩
      have hne : ¬ k0 = k := fun he => hnd.1 (he ▸ hkmem)
      rw [searchParamsGet, List.find?_cons]
      have hp : (decide ((k0, v0).1 = k)) = false := decide_eq_false hne
      simp only [hp]
      exact ih hnd.2 hm

theorem name_unique {γ : Type} (l : List γ) (nm : γ → String)
    (hnd : (l.map nm).Nodup) (a b : γ) (ha : a ∈ l) (hb : b ∈ l)
    (h : nm a = nm b) : a = b := by
  exact List.inj_on_of_nodup_map hnd ha hb h

/-! ## Shape extraction and collection characterization -/

theorem roundShape_path (f : Field) (pk : Option String)
    (hm : f.meta = some (Metadata.path pk)) (hs : roundShape f = true) :
    ∃ s, f.value = .str s ∧ s.data ≠ [] ∧ asciiL s.data = true ∧
      ((pk.getD f.propName).data.contains '}') = false := by
  have hs2 : (match f.meta with
    | none => true
    | some (Metadata.path pk) =>
      strOk f.value && !((pk.getD f.propName).data.contains '}')
    | some (Metadata.query pk dt) =>
      asciiL (pk.getD f.propName).data &&
        (if dt = some DataKind.boolean then boolTrue f.value else strOkQ f.value)
    | some _ => false) = true := hs
  rw [hm] at hs2
  simp only [Bool.and_eq_true, Bool.not_eq_true'] at hs2
  cases hval : f.value with
  | str s =>
    rw [hval] at hs2
    refine ⟨s, rfl, ?_, ?_, hs2.2⟩
    · intro hcon
      rw [show strOk (JSValue.str s) = (!s.data.isEmpty && asciiL s.data) from rfl,
        hcon] at hs2
      exact absurd hs2.1 (by decide)
    · have h1 := hs2.1
      rw [show strOk (JSValue.str s) = (!s.data.isEmpty && asciiL s.data) from rfl] at h1
      exact ((Bool.and_eq_true ..).mp h1).2
  | undef =>
    rw [hval, show strOk JSValue.undef = false from rfl] at hs2
    exact absurd hs2.1 (by decide)
  | null =>
    rw [hval, show strOk JSValue.null = false from rfl] at hs2
    exact absurd hs2.1 (by decide)
  | bool b =>
    rw [hval, show strOk (JSValue.bool b) = false from rfl] at hs2
    exact absurd hs2.1 (by decide)
  | arr xs =>
    rw [hval, show strOk (JSValue.arr xs) = false from rfl] at hs2
    exact absurd hs2.1 (by decide)

theorem roundShape_query (f : Field) (pk : Option String) (dt : Option DataKind)
    (hm : f.meta = some (Metadata.query pk dt)) (hs : roundShape f = true) :
    asciiL (pk.getD f.propName).data = true ∧
      (if dt = some DataKind.boolean then f.value = .bool true
       else ∃ s, f.value = .str s ∧ asciiL s.data = true) := by
  have hs2 : (match f.meta with
    | none => true
    | some (Metadata.path pk) =>
      strOk f.value && !((pk.getD f.propName).data.contains '}')
    | some (Metadata.query pk dt) =>
      asciiL (pk.getD f.propName).data &&
        (if dt = some DataKind.boolean then boolTrue f.value else strOkQ f.value)
    | some _ => false) = true := hs
  rw [hm] at hs2
  simp only [Bool.and_eq_true] at hs2
  refine ⟨hs2.1, ?_⟩
  by_cases hdt : dt = some DataKind.boolean
  · rw [if_pos hdt]
    have h2 := hs2.2
    rw [if_pos hdt] at h2
    cases hval : f.value with
    | bool b =>
      rw [hval, show boolTrue (JSValue.bool b) = b from rfl] at h2
      rw [h2]
    | undef =>
      rw [hval, show boolTrue JSValue.undef = false from rfl] at h2
      exact absurd h2 (by decide)
    | null =>
      rw [hval, show boolTrue JSValue.null = false from rfl] at h2
      exact absurd h2 (by decide)
    | str s =>
      rw [hval, show boolTrue (JSValue.str s) = false from rfl] at h2
      exact absurd h2 (by decide)
    | arr xs =>
      rw [hval, show boolTrue (JSValue.arr xs) = false from rfl] at h2
      exact absurd h2 (by decide)
  · rw [if_neg hdt]
    have h2 := hs2.2
    rw [if_neg hdt] at h2
    cases hval : f.value with
    | str s =>
      rw [hval, show strOkQ (JSValue.str s) = asciiL s.data from rfl] at h2
      exact ⟨s, rfl, h2⟩
    | undef =>
      rw [hval, show strOkQ JSValue.undef = false from rfl] at h2
      exact absurd h2 (by decide)
    | null =>
      rw [hval, show strOkQ JSValue.null = false from rfl] at h2
      exact absurd h2 (by decide)
    | bool b =>
      rw [hval, show strOkQ (JSValue.bool b) = false from rfl] at h2
      exact absurd h2 (by decide)
    | arr xs =>
      rw [hval, show strOkQ (JSValue.arr xs) = false from rfl] at h2
      exact absurd h2 (by decide)

theorem roundShape_no_pathSerde (f : Field) (ser : JSValue → List (String × String))
    (de : List (String × String) → JSValue)
    (hm : f.meta = some (Metadata.pathSerde ser de)) (hs : roundShape f = true) : False := by
  have hs2 : (match f.meta with
    | none => true
    | some (Metadata.path pk) =>
      strOk f.value && !((pk.getD f.propName).data.contains '}')
    | some (Metadata.query pk dt) =>
      asciiL (pk.getD f.propName).data &&
        (if dt = some DataKind.boolean then boolTrue f.value else strOkQ f.value)
    | some _ => false) = true := hs
  rw [hm] at hs2
  simp only at hs2
  exact absurd hs2 (by decide)

theorem roundShape_no_querySerde (f : Field) (ser : JSValue → List (String × String))
    (de : List (String × String) → JSValue)
    (hm : f.meta = some (Metadata.querySerde ser de)) (hs : roundShape f = true) : False := by
  have hs2 : (match f.meta with
    | none => true
    | some (Metadata.path pk) =>
      strOk f.value && !((pk.getD f.propName).data.contains '}')
    | some (Metadata.query pk dt) =>
      asciiL (pk.getD f.propName).data &&
        (if dt = some DataKind.boolean then boolTrue f.value else strOkQ f.value)
    | some _ => false) = true := hs
  rw [hm] at hs2
  simp only at hs2
  exact absurd hs2 (by decide)

theorem resolve_aux (flds : List Field) :
    ∀ a : List (String × PathFieldInfo) × List (String × QueryFieldInfo),
    flds.foldl
      (fun acc f =>
        match f.meta with
        | none => acc
        | some (.path pk) => (acc.1 ++ [(f.propName, .key (pk.getD f.propName))], acc.2)
        | some (.pathSerde _ de) => (acc.1 ++ [(f.propName, .deser de)], acc.2)
        | some (.query pk dt) => (acc.1, acc.2 ++ [(f.propName, .keyed (pk.getD f.propName) dt)])
        | some (.querySerde _ de) => (acc.1, acc.2 ++ [(f.propName, .deser de)]))
      a = (a.1 ++ pathInfos flds, a.2 ++ queryInfos flds) := by
  induction flds with
  | nil =>
    intro a
    simp [pathInfos, queryInfos]
  | cons f rest ih =>
    intro a
    rw [List.foldl_cons]
    cases hm : f.meta with
    | none =>
      rw [ih]
      simp [pathInfos, queryInfos, List.filterMap_cons, hm]
    | some m =>
      cases m with
      | path pk =>
        rw [ih]
        simp [pathInfos, queryInfos, List.filterMap_cons, hm]
      | pathSerde ser de =>
        rw [ih]
        simp [pathInfos, queryInfos, List.filterMap_cons, hm]
      | query pk dt =>
        rw [ih]
        simp [pathInfos, queryInfos, List.filterMap_cons, hm]
      | querySerde ser de =>
        rw [ih]
        simp [pathInfos, queryInfos, List.filterMap_cons, hm]

theorem resolveFieldsMetadata_eq (flds : List Field) :
    resolveFieldsMetadata flds = (pathInfos flds, queryInfos flds) := by
  rw [resolveFieldsMetadata, resolve_aux]
  simp

theorem collect_aux (flds : List Field) :
    ∀ a : List (String × String) × List (String × QueryVal),
    (∀ f ∈ flds, roundShape f = true) →
    (pathKeys flds).Nodup → (queryKeys flds).Nodup →
    (∀ kv ∈ a.1, ∀ k ∈ pathKeys flds, kv.1 ≠ k) →
    (∀ kv ∈ a.2, ∀ k ∈ queryKeys flds, kv.1 ≠ k) →
    flds.foldl
      (fun acc f =>
        match f.meta with
        | none => acc
        | some m =>
          if jsLooseNull f.value then acc
          else
            match m with
            | .path pk => (setAssoc acc.1 (pk.getD f.propName) (jsToString f.value), acc.2)
            | .pathSerde ser _ => (assignEntries acc.1 (ser f.value), acc.2)
            | .query pk dt =>
              let key := pk.getD f.propName
              if dt = some .boolean ∧ ¬ jsLooseNull f.value ∧ ¬ jsLooseEqFalse f.value then
                (acc.1, setAssoc acc.2 key (.str ""))
              else
                (acc.1, setAssoc acc.2 key (.str (jsToString f.value)))
            | .querySerde ser _ =>
              (acc.1, assignEntries acc.2 ((ser f.value).map fun kv => (kv.1, QueryVal.str kv.2))))
      a =
      (a.1 ++ pathPairs flds,
       a.2 ++ (queryStrPairs flds).map (fun kv => (kv.1, QueryVal.str kv.2))) := by
  induction flds with
  | nil =>
    intro a _ _ _ _ _
    simp [pathPairs, queryStrPairs]
  | cons f rest ih =>
    intro a hsh hnd1 hnd2 hf1 hf2
    have hshf := hsh f (List.mem_cons_self f rest)
    have hshr := fun g hg => hsh g (List.mem_cons_of_mem f hg)
    rw [List.foldl_cons]
    cases hm : f.meta with
    | none =>
      have hpk : pathKeys (f :: rest) = pathKeys rest := by
        simp [pathKeys, List.filterMap_cons, hm]
      have hqk : queryKeys (f :: rest) = queryKeys rest := by
        simp [queryKeys, List.filterMap_cons, hm]
      have hpp : pathPairs (f :: rest) = pathPairs rest := by
        simp [pathPairs, List.filterMap_cons, hm]
      have hqp : queryStrPairs (f :: rest) = queryStrPairs rest := by
        simp [queryStrPairs, List.filterMap_cons, hm]
      rw [hpk] at hnd1 hf1
      rw [hqk] at hnd2 hf2
      simp only [hm]
      rw [ih a hshr hnd1 hnd2 hf1 hf2, hpp, hqp]
    | some m =>
      cases m with
      | path pk =>
        obtain ⟨s, hv, hsne, hsa, hkb⟩ := roundShape_path f pk hm hshf
        have hln : jsLooseNull f.value = false := by
          rw [hv]
          rfl
        have hpk : pathKeys (f :: rest) = (pk.getD f.propName) :: pathKeys rest := by
          simp [pathKeys, List.filterMap_cons, hm]
        have hqk : queryKeys (f :: rest) = queryKeys rest := by
          simp [queryKeys, List.filterMap_cons, hm]
        have hpp : pathPairs (f :: rest) =
            (pk.getD f.propName, jsToString f.value) :: pathPairs rest := by
          simp [pathPairs, List.filterMap_cons, hm]
        have hqp : queryStrPairs (f :: rest) = queryStrPairs rest := by
          simp [queryStrPairs, List.filterMap_cons, hm]
        rw [hpk] at hnd1 hf1
        rw [hqk] at hnd2 hf2
        rw [List.nodup_cons] at hnd1
        simp only [hm]
        rw [if_neg (by simp [hln])]
        rw [setAssoc_fresh a.1 _ _
          (fun kv hkv => hf1 kv hkv _ (List.mem_cons_self _ _))]
        have hfresh1 : ∀ kv ∈ a.1 ++ [(pk.getD f.propName, jsToString f.value)],
            ∀ k ∈ pathKeys rest, kv.1 ≠ k := by
          intro kv hkv k hk
          rcases List.mem_append.mp hkv with hkv | hkv
          · exact hf1 kv hkv k (List.mem_cons_of_mem _ hk)
          · rw [List.mem_singleton.mp hkv]
            exact fun he => hnd1.1 (by
              rw [← he] at hk
              exact hk)
        rw [ih (a.1 ++ [(pk.getD f.propName, jsToString f.value)], a.2) hshr hnd1.2 hnd2
          hfresh1 hf2, hpp, hqp]
        rw [List.append_assoc, List.singleton_append]
      | pathSerde ser de =>
        exact absurd hshf (by
          intro hc
          exact roundShape_no_pathSerde f ser de hm hc)
      | query pk dt =>
        obtain ⟨hka, hval⟩ := roundShape_query f pk dt hm hshf
        have hpk : pathKeys (f :: rest) = pathKeys rest := by
          simp [pathKeys, List.filterMap_cons, hm]
        have hqk : queryKeys (f :: rest) = (pk.getD f.propName) :: queryKeys rest := by
          simp [queryKeys, List.filterMap_cons, hm]
        have hpp : pathPairs (f :: rest) = pathPairs rest := by
          simp [pathPairs, List.filterMap_cons, hm]
        have hqp : queryStrPairs (f :: rest) =
            (pk.getD f.propName,
              if dt = some DataKind.boolean then "" else jsToString f.value) ::
              queryStrPairs rest := by
          simp [queryStrPairs, List.filterMap_cons, hm]
        rw [hpk] at hnd1 hf1
        rw [hqk] at hnd2 hf2
        rw [List.nodup_cons] at hnd2
        simp only [hm]
        by_cases hdt : dt = some DataKind.boolean
        · rw [if_pos hdt] at hval
          have hln : jsLooseNull f.value = false := by
            rw [hval]
            rfl
          have hlf : jsLooseEqFalse f.value = false := by
            rw [hval]
            rfl
          rw [if_neg (by simp [hln])]
          rw [if_pos ⟨hdt, by simp [hln], by simp [hlf]⟩]
          rw [setAssoc_fresh a.2 _ _
            (fun kv hkv => hf2 kv hkv _ (List.mem_cons_self _ _))]
          have hfresh2 : ∀ kv ∈ a.2 ++ [(pk.getD f.propName, QueryVal.str "")],
              ∀ k ∈ queryKeys rest, kv.1 ≠ k := by
            intro kv hkv k hk
            rcases List.mem_append.mp hkv with hkv | hkv
            · exact hf2 kv hkv k (List.mem_cons_of_mem _ hk)
            · rw [List.mem_singleton.mp hkv]
              exact fun he => hnd2.1 (by
                rw [← he] at hk
                exact hk)
          rw [ih (a.1, a.2 ++ [(pk.getD f.propName, QueryVal.str "")]) hshr hnd1 hnd2.2
            hf1 hfresh2, hpp, hqp]
          rw [List.map_cons, if_pos hdt, List.append_assoc, List.singleton_append]
        · rw [if_neg hdt] at hval
          obtain ⟨s, hv, hsa⟩ := hval
          have hln : jsLooseNull f.value = false := by
            rw [hv]
            rfl
          rw [if_neg (by simp [hln])]
          rw [if_neg (fun hc => hdt hc.1)]
          rw [setAssoc_fresh a.2 _ _
            (fun kv hkv => hf2 kv hkv _ (List.mem_cons_self _ _))]
          have hfresh2 : ∀ kv ∈ a.2 ++ [(pk.getD f.propName, QueryVal.str (jsToString f.value))],
              ∀ k ∈ queryKeys rest, kv.1 ≠ k := by
            intro kv hkv k hk
            rcases List.mem_append.mp hkv with hkv | hkv
            · exact hf2 kv hkv k (List.mem_cons_of_mem _ hk)
            · rw [List.mem_singleton.mp hkv]
              exact fun he => hnd2.1 (by
                rw [← he] at hk
                exact hk)
          rw [ih (a.1, a.2 ++ [(pk.getD f.propName, QueryVal.str (jsToString f.value))])
            hshr hnd1 hnd2.2 hf1 hfresh2, hpp, hqp]
          rw [List.map_cons, if_neg hdt, List.append_assoc, List.singleton_append]
      | querySerde ser de =>
        exact absurd hshf (by
          intro hc
          exact roundShape_no_querySerde f ser de hm hc)

theorem collectParams_eq (flds : List Field)
    (hsh : ∀ f ∈ flds, roundShape f = true)
    (hnd1 : (pathKeys flds).Nodup) (hnd2 : (queryKeys flds).Nodup) :
    collectParams flds =
      (pathPairs flds, (queryStrPairs flds).map (fun kv => (kv.1, QueryVal.str kv.2))) := by
  rw [collectParams, collect_aux flds ([], []) hsh hnd1 hnd2
    (by intro kv hkv; cases hkv) (by intro kv hkv; cases hkv)]
  simp

/-! ## Apply loops on round-trip inputs -/

theorem applyPathFields_roundtrip (flds : List Field) :
    ∀ (groups : List (String × String)) (tmp : Obj),
    (∀ f ∈ flds, roundShape f = true) →
    (∀ f ∈ flds, ∀ pk, f.meta = some (Metadata.path pk) →
      ∃ s, f.value = .str s ∧ (∀ c ∈ s.data, c.toNat < 128) ∧
        groups.lookup (pk.getD f.propName) = some (String.mk (encodeURIComponentL s.data))) →
    applyPathFields (pathInfos flds) groups tmp =
      .ok ((pathUpds flds).foldl (fun o kv => setField o kv.1 kv.2) tmp) := by
  induction flds with
  | nil =>
    intro groups tmp _ _
    rfl
  | cons f rest ih =>
    intro groups tmp hsh hg
    have hshf := hsh f (List.mem_cons_self f rest)
    have hshr := fun g hg2 => hsh g (List.mem_cons_of_mem f hg2)
    have hgr := fun g hg2 pk hm => hg g (List.mem_cons_of_mem f hg2) pk hm
    cases hm : f.meta with
    | none =>
      have hpi : pathInfos (f :: rest) = pathInfos rest := by
        simp [pathInfos, List.filterMap_cons, hm]
      have hpu : pathUpds (f :: rest) = pathUpds rest := by
        simp [pathUpds, List.filterMap_cons, hm]
      rw [hpi, hpu, ih groups tmp hshr hgr]
    | some m =>
      cases m with
      | path pk =>
        obtain ⟨s, hv, hsa, hlook⟩ := hg f (List.mem_cons_self f rest) pk hm
        have hpi : pathInfos (f :: rest) =
            (f.propName, PathFieldInfo.key (pk.getD f.propName)) :: pathInfos rest := by
          simp [pathInfos, List.filterMap_cons, hm]
        have hpu : pathUpds (f :: rest) = (f.propName, f.value) :: pathUpds rest := by
          simp [pathUpds, List.filterMap_cons, hm]
        rw [hpi, hpu, applyPathFields]
        have hdec : decodeURIComponent (String.mk (encodeURIComponentL s.data)) = some s := by
          rw [decodeURIComponent, data_mk, decode_encode_ascii s.data hsa]
          rfl
        simp only [hlook, hdec]
        rw [List.foldl_cons, ih groups (setField tmp f.propName (.str s)) hshr hgr, hv]
      | pathSerde ser de =>
        exact absurd hshf (by
          intro hc
          exact roundShape_no_pathSerde f ser de hm hc)
      | query pk dt =>
        have hpi : pathInfos (f :: rest) = pathInfos rest := by
          simp [pathInfos, List.filterMap_cons, hm]
        have hpu : pathUpds (f :: rest) = pathUpds rest := by
          simp [pathUpds, List.filterMap_cons, hm]
        rw [hpi, hpu, ih groups tmp hshr hgr]
      | querySerde ser de =>
        have hpi : pathInfos (f :: rest) = pathInfos rest := by
          simp [pathInfos, List.filterMap_cons, hm]
        have hpu : pathUpds (f :: rest) = pathUpds rest := by
          simp [pathUpds, List.filterMap_cons, hm]
        rw [hpi, hpu, ih groups tmp hshr hgr]

theorem applyQueryFields_roundtrip (flds : List Field) :
    ∀ (qps : List (String × String)) (tmp : Obj),
    (∀ f ∈ flds, roundShape f = true) →
    (∀ f ∈ flds, ∀ pk dt, f.meta = some (Metadata.query pk dt) →
      (if dt = some DataKind.boolean then
        f.value = .bool true ∧ (searchParamsGet qps (pk.getD f.propName)).isSome = true
      else
        ∃ s, f.value = .str s ∧ searchParamsGet qps (pk.getD f.propName) = some s)) →
    applyQueryFields (queryInfos flds) qps tmp =
      .ok ((queryUpds flds).foldl (fun o kv => setField o kv.1 kv.2) tmp) := by
  induction flds with
  | nil =>
    intro qps tmp _ _
    rfl
  | cons f rest ih =>
    intro qps tmp hsh hq
    have hshf := hsh f (List.mem_cons_self f rest)
    have hshr := fun g hg2 => hsh g (List.mem_cons_of_mem f hg2)
    have hqr := fun g hg2 pk dt hm => hq g (List.mem_cons_of_mem f hg2) pk dt hm
    cases hm : f.meta with
    | none =>
      have hqi : queryInfos (f :: rest) = queryInfos rest := by
        simp [queryInfos, List.filterMap_cons, hm]
      have hqu : queryUpds (f :: rest) = queryUpds rest := by
        simp [queryUpds, List.filterMap_cons, hm]
      rw [hqi, hqu, ih qps tmp hshr hqr]
    | some m =>
      cases m with
      | path pk =>
        have hqi : queryInfos (f :: rest) = queryInfos rest := by
          simp [queryInfos, List.filterMap_cons, hm]
        have hqu : queryUpds (f :: rest) = queryUpds rest := by
          simp [queryUpds, List.filterMap_cons, hm]
        rw [hqi, hqu, ih qps tmp hshr hqr]
      | pathSerde ser de =>
        have hqi : queryInfos (f :: rest) = queryInfos rest := by
          simp [queryInfos, List.filterMap_cons, hm]
        have hqu : queryUpds (f :: rest) = queryUpds rest := by
          simp [queryUpds, List.filterMap_cons, hm]
        rw [hqi, hqu, ih qps tmp hshr hqr]
      | query pk dt =>
        have hval := hq f (List.mem_cons_self f rest) pk dt hm
        have hqi : queryInfos (f :: rest) =
            (f.propName, QueryFieldInfo.keyed (pk.getD f.propName) dt) :: queryInfos rest := by
          simp [queryInfos, List.filterMap_cons, hm]
        have hqu : queryUpds (f :: rest) = (f.propName, f.value) :: queryUpds rest := by
          simp [queryUpds, List.filterMap_cons, hm]
        rw [hqi, hqu, applyQueryFields, List.foldl_cons]
        by_cases hdt : dt = some DataKind.boolean
        · rw [if_pos hdt] at hval
          obtain ⟨hv, hsome⟩ := hval
          rw [if_pos hdt, hsome, ih qps _ hshr hqr, hv]
        · rw [if_neg hdt] at hval
          obtain ⟨s, hv, hlook⟩ := hval
          rw [if_neg hdt]
          simp only [hlook]
          rw [ih qps _ hshr hqr, hv]
      | querySerde ser de =>
        exact absurd hshf (by
          intro hc
          exact roundShape_no_querySerde f ser de hm hc)

/-! ## The final object of the apply loops -/

theorem map_ext_mem {α β : Type} (l : List α) (f g : α → β)
    (h : ∀ a ∈ l, f a = g a) : l.map f = l.map g := by
  induction l with
  | nil => rfl
  | cons a rest ih =>
    rw [List.map_cons, List.map_cons, h a (List.mem_cons_self a rest),
      ih (fun b hb => h b (List.mem_cons_of_mem a hb))]

theorem filterMap_ext_mem {α β : Type} (l : List α) (f g : α → Option β)
    (h : ∀ a ∈ l, f a = g a) : l.filterMap f = l.filterMap g := by
  induction l with
  | nil => rfl
  | cons a rest ih =>
    rw [List.filterMap_cons, List.filterMap_cons, h a (List.mem_cons_self a rest),
      ih (fun b hb => h b (List.mem_cons_of_mem a hb))]

theorem map_upd_id (F : List Field) (k : String) (v : JSValue)
    (h : ∀ g ∈ F, g.propName ≠ k) :
    F.map (fun g => if g.propName = k then ⟨g.propName, g.meta, v⟩ else g) = F := by
  induction F with
  | nil => rfl
  | cons g rest ih =>
    rw [List.map_cons, if_neg (h g (List.mem_cons_self g rest)),
      ih (fun x hx => h x (List.mem_cons_of_mem g hx))]

theorem setFieldList_eq_map (F : List Field) (k : String) (v : JSValue)
    (hnd : (F.map Field.propName).Nodup) (hmem : k ∈ F.map Field.propName) :
    setFieldList F k v =
      F.map (fun g => if g.propName = k then ⟨g.propName, g.meta, v⟩ else g) := by
  induction F with
  | nil => cases hmem
  | cons g rest ih =>
    rw [List.map_cons, List.nodup_cons] at hnd
    rw [List.map_cons]
    by_cases hk : g.propName = k
    · rw [setFieldList, if_pos hk, if_pos hk]
      rw [map_upd_id rest k v (fun x hx he => hnd.1 (hk ▸ he ▸ List.mem_map.mpr ⟨x, hx, rfl⟩))]
    · rw [setFieldList, if_neg hk, if_neg hk]
      rcases List.mem_cons.mp (List.map_cons .. ▸ hmem) with hmem | hmem
      · exact absurd hmem.symm hk
      · rw [ih hnd.2 hmem]

theorem names_map_upd (F : List Field) (k : String) (v : JSValue) :
    (F.map (fun g => if g.propName = k then ⟨g.propName, g.meta, v⟩ else g)).map
      Field.propName = F.map Field.propName := by
  rw [List.map_map]
  refine map_ext_mem F _ _ (fun g _ => ?_)
  by_cases hk : g.propName = k
  · simp [hk]
  · simp [hk]

theorem foldl_setField_fields (upds : List (String × JSValue)) :
    ∀ (rk : Option String) (F : List Field),
    (∀ kv ∈ upds, kv.1 ∈ F.map Field.propName) →
    (F.map Field.propName).Nodup →
    ((upds.map Prod.fst).Nodup) →
    upds.foldl (fun o kv => setField o kv.1 kv.2) ⟨rk, F⟩ =
      ⟨rk, F.map (fun g =>
        match upds.lookup g.propName with
        | some v => ⟨g.propName, g.meta, v⟩
        | none => g)⟩ := by
  induction upds with
  | nil =>
    intro rk F _ _ _
    rw [List.foldl_nil]
    exact congrArg (Obj.mk rk) (Eq.symm (by
      refine Eq.trans (map_ext_mem F _ (fun g => g) (fun g _ => rfl)) ?_
      exact List.map_id F))
  | cons kv upds ih =>
    intro rk F hsub hnd hndu
    obtain ⟨k, v⟩ := kv
    rw [List.map_cons, List.nodup_cons] at hndu
    rw [List.foldl_cons]
    rw [show setField ⟨rk, F⟩ k v = ⟨rk, setFieldList F k v⟩ from rfl]
    rw [setFieldList_eq_map F k v hnd (hsub (k, v) (List.mem_cons_self _ _))]
    rw [ih rk _
      (by
        intro kv2 hkv2
        rw [names_map_upd]
        exact hsub kv2 (List.mem_cons_of_mem _ hkv2))
      (by
        rw [names_map_upd]
        exact hnd)
      hndu.2]
    refine congrArg (Obj.mk rk) ?_
    rw [List.map_map]
    refine map_ext_mem F _ _ (fun g _ => ?_)
    by_cases hk : g.propName = k
    · have hbeq : (g.propName == k) = true := beq_iff_eq.mpr hk
      simp only [Function.comp_apply, if_pos hk]
      rw [show (Field.mk g.propName g.meta v).propName = g.propName from rfl]
      rw [lookup_eq_none_of_not_mem upds g.propName (hk ▸ hndu.1)]
      rw [List.lookup]
      simp only [hbeq]
    · have hbeq : (g.propName == k) = false := beq_eq_false_iff_ne.mpr hk
      simp only [Function.comp_apply, if_neg hk]
      rw [List.lookup]
      simp only [hbeq]

theorem lookup_append_left {β : Type} (A B : List (String × β)) (k : String) (v : β)
    (h : A.lookup k = some v) : (A ++ B).lookup k = some v := by
  induction A with
  | nil => cases h
  | cons kv rest ih =>
    obtain ⟨k0, v0⟩ := kv
    rw [List.cons_append, List.lookup]
    rw [List.lookup] at h
    cases hbeq : k == k0 with
    | true =>
      simp only [hbeq] at h ⊢
      exact h
    | false =>
      simp only [hbeq] at h ⊢
      exact ih h

theorem lookup_append_right {β : Type} (A B : List (String × β)) (k : String)
    (h : k ∉ A.map Prod.fst) : (A ++ B).lookup k = B.lookup k := by
  induction A with
  | nil => rfl
  | cons kv rest ih =>
    obtain ⟨k0, v0⟩ := kv
    rw [List.map_cons] at h
    have hne : ¬ k = k0 := fun he => h (he ▸ List.mem_cons_self _ _)
    have hbeq : (k == k0) = false := beq_eq_false_iff_ne.mpr hne
    rw [List.cons_append, List.lookup]
    simp only [hbeq]
    exact ih (fun hm => h (List.mem_cons_of_mem _ hm))

theorem pathUpds_keys (flds : List Field) :
    (pathUpds flds).map Prod.fst =
      (flds.filter (fun f =>
        match f.meta with
        | some (Metadata.path _) => true
        | _ => false)).map Field.propName := by
  induction flds with
  | nil => rfl
  | cons f rest ih =>
    cases hm : f.meta with
    | none =>
      have h1 : pathUpds (f :: rest) = pathUpds rest := by
        simp [pathUpds, List.filterMap_cons, hm]
      have h2 : List.filter (fun f =>
        match f.meta with
        | some (Metadata.path _) => true
        | _ => false) (f :: rest) =
          List.filter (fun f =>
        match f.meta with
        | some (Metadata.path _) => true
        | _ => false) rest := by
        rw [List.filter_cons]
        simp [hm]
      rw [h1, h2, ih]
    | some m =>
      cases m with
      | path pk =>
        have h1 : pathUpds (f :: rest) = (f.propName, f.value) :: pathUpds rest := by
          simp [pathUpds, List.filterMap_cons, hm]
        have h2 : List.filter (fun f =>
        match f.meta with
        | some (Metadata.path _) => true
        | _ => false) (f :: rest) =
            f :: List.filter (fun f =>
        match f.meta with
        | some (Metadata.path _) => true
        | _ => false) rest := by
          rw [List.filter_cons]
          simp [hm]
        rw [h1, h2, List.map_cons, List.map_cons, ih]
      | pathSerde ser de =>
        have h1 : pathUpds (f :: rest) = pathUpds rest := by
          simp [pathUpds, List.filterMap_cons, hm]
        have h2 : List.filter (fun f =>
        match f.meta with
        | some (Metadata.path _) => true
        | _ => false) (f :: rest) =
            List.filter (fun f =>
        match f.meta with
        | some (Metadata.path _) => true
        | _ => false) rest := by
          rw [List.filter_cons]
          simp [hm]
        rw [h1, h2, ih]
      | query pk dt =>
        have h1 : pathUpds (f :: rest) = pathUpds rest := by
          simp [pathUpds, List.filterMap_cons, hm]
        have h2 : List.filter (fun f =>
        match f.meta with
        | some (Metadata.path _) => true
        | _ => false) (f :: rest) =
            List.filter (fun f =>
        match f.meta with
        | some (Metadata.path _) => true
        | _ => false) rest := by
          rw [List.filter_cons]
          simp [hm]
        rw [h1, h2, ih]
      | querySerde ser de =>
        have h1 : pathUpds (f :: rest) = pathUpds rest := by
          simp [pathUpds, List.filterMap_cons, hm]
        have h2 : List.filter (fun f =>
        match f.meta with
        | some (Metadata.path _) => true
        | _ => false) (f :: rest) =
            List.filter (fun f =>
        match f.meta with
        | some (Metadata.path _) => true
        | _ => false) rest := by
          rw [List.filter_cons]
          simp [hm]
        rw [h1, h2, ih]

theorem queryUpds_keys (flds : List Field) :
    (queryUpds flds).map Prod.fst =
      (flds.filter (fun f =>
        match f.meta with
        | some (Metadata.query _ _) => true
        | _ => false)).map Field.propName := by
  induction flds with
  | nil => rfl
  | cons f rest ih =>
    cases hm : f.meta with
    | none =>
      have h1 : queryUpds (f :: rest) = queryUpds rest := by
        simp [queryUpds, List.filterMap_cons, hm]
      have h2 : List.filter (fun f =>
        match f.meta with
        | some (Metadata.query _ _) => true
        | _ => false) (f :: rest) =
          List.filter (fun f =>
        match f.meta with
        | some (Metadata.query _ _) => true
        | _ => false) rest := by
        rw [List.filter_cons]
        simp [hm]
      rw [h1, h2, ih]
    | some m =>
      cases m with
      | path pk =>
        have h1 : queryUpds (f :: rest) = queryUpds rest := by
          simp [queryUpds, List.filterMap_cons, hm]
        have h2 : List.filter (fun f =>
        match f.meta with
        | some (Metadata.query _ _) => true
        | _ => false) (f :: rest) =
            List.filter (fun f =>
        match f.meta with
        | some (Metadata.query _ _) => true
        | _ => false) rest := by
          rw [List.filter_cons]
          simp [hm]
        rw [h1, h2, ih]
      | pathSerde ser de =>
        have h1 : queryUpds (f :: rest) = queryUpds rest := by
          simp [queryUpds, List.filterMap_cons, hm]
        have h2 : List.filter (fun f =>
        match f.meta with
        | some (Metadata.query _ _) => true
        | _ => false) (f :: rest) =
            List.filter (fun f =>
        match f.meta with
        | some (Metadata.query _ _) => true
        | _ => false) rest := by
          rw [List.filter_cons]
          simp [hm]
        rw [h1, h2, ih]
      | query pk dt =>
        have h1 : queryUpds (f :: rest) = (f.propName, f.value) :: queryUpds rest := by
          simp [queryUpds, List.filterMap_cons, hm]
        have h2 : List.filter (fun f =>
        match f.meta with
        | some (Metadata.query _ _) => true
        | _ => false) (f :: rest) =
            f :: List.filter (fun f =>
        match f.meta with
        | some (Metadata.query _ _) => true
        | _ => false) rest := by
          rw [List.filter_cons]
          simp [hm]
        rw [h1, h2, List.map_cons, List.map_cons, ih]
      | querySerde ser de =>
        have h1 : queryUpds (f :: rest) = queryUpds rest := by
          simp [queryUpds, List.filterMap_cons, hm]
        have h2 : List.filter (fun f =>
        match f.meta with
        | some (Metadata.query _ _) => true
        | _ => false) (f :: rest) =
            List.filter (fun f =>
        match f.meta with
        | some (Metadata.query _ _) => true
        | _ => false) rest := by
          rw [List.filter_cons]
          simp [hm]
        rw [h1, h2, ih]

theorem mem_pathUpds (flds : List Field) (k : String) (v : JSValue)
    (hm : (k, v) ∈ pathUpds flds) :
    ∃ f ∈ flds, ∃ pk, f.meta = some (Metadata.path pk) ∧ k = f.propName ∧ v = f.value := by
  rcases List.mem_filterMap.mp hm with ⟨f, hf, hsel⟩
  cases hmf : f.meta with
  | none =>
    rw [hmf] at hsel
    cases hsel
  | some m =>
    cases m with
    | path pk =>
      rw [hmf] at hsel
      simp only [Option.some.injEq, Prod.mk.injEq] at hsel
      exact ⟨f, hf, pk, hmf, hsel.1.symm, hsel.2.symm⟩
    | pathSerde ser de =>
      rw [hmf] at hsel
      cases hsel
    | query pk dt =>
      rw [hmf] at hsel
      cases hsel
    | querySerde ser de =>
      rw [hmf] at hsel
      cases hsel

theorem mem_queryUpds (flds : List Field) (k : String) (v : JSValue)
    (hm : (k, v) ∈ queryUpds flds) :
    ∃ f ∈ flds, ∃ pk dt, f.meta = some (Metadata.query pk dt) ∧ k = f.propName ∧
      v = f.value := by
  rcases List.mem_filterMap.mp hm with ⟨f, hf, hsel⟩
  cases hmf : f.meta with
  | none =>
    rw [hmf] at hsel
    cases hsel
  | some m =>
    cases m with
    | path pk =>
      rw [hmf] at hsel
      cases hsel
    | pathSerde ser de =>
      rw [hmf] at hsel
      cases hsel
    | query pk dt =>
      rw [hmf] at hsel
      simp only [Option.some.injEq, Prod.mk.injEq] at hsel
      exact ⟨f, hf, pk, dt, hmf, hsel.1.symm, hsel.2.symm⟩
    | querySerde ser de =>
      rw [hmf] at hsel
      cases hsel

theorem upds_keys_nodup (flds : List Field)
    (hnd : (flds.map Field.propName).Nodup) :
    (((pathUpds flds ++ queryUpds flds)).map Prod.fst).Nodup := by
  rw [List.map_append, List.nodup_append]
  refine ⟨?_, ?_, ?_⟩
  · rw [pathUpds_keys]
    exact ((List.filter_sublist flds).map Field.propName).nodup hnd
  · rw [queryUpds_keys]
    exact ((List.filter_sublist flds).map Field.propName).nodup hnd
  · intro k hk1 hk2
    rcases List.mem_map.mp hk1 with ⟨kv1, hkv1, he1⟩
    rcases List.mem_map.mp hk2 with ⟨kv2, hkv2, he2⟩
    obtain ⟨f, hf, pk, hmf, hkf, _⟩ :=
      mem_pathUpds flds kv1.1 kv1.2 (by
        rw [show (kv1.1, kv1.2) = kv1 from rfl]
        exact hkv1)
    obtain ⟨g, hg, pk2, dt2, hmg, hkg, _⟩ :=
      mem_queryUpds flds kv2.1 kv2.2 (by
        rw [show (kv2.1, kv2.2) = kv2 from rfl]
        exact hkv2)
    have hnames : f.propName = g.propName := by
      rw [← hkf, ← hkg, he1, he2]
    have hfg : f = g := List.inj_on_of_nodup_map hnd hf hg hnames
    rw [hfg, hmg] at hmf
    cases hmf

theorem annotatedValues_final (flds : List Field) (rk rk2 : Option String)
    (upds : List (String × JSValue))
    (hl : ∀ f ∈ flds, ∀ m, f.meta = some m → upds.lookup f.propName = some f.value) :
    annotatedValues ⟨rk2, (freshOf flds).map (fun g =>
        match upds.lookup g.propName with
        | some v => ⟨g.propName, g.meta, v⟩
        | none => g)⟩ =
      annotatedValues ⟨rk, flds⟩ := by
  rw [annotatedValues, annotatedValues]
  rw [show (Obj.mk rk2 ((freshOf flds).map (fun g =>
      match upds.lookup g.propName with
      | some v => ⟨g.propName, g.meta, v⟩
      | none => g))).fields = (freshOf flds).map (fun g =>
      match upds.lookup g.propName with
      | some v => ⟨g.propName, g.meta, v⟩
      | none => g) from rfl]
  rw [show (Obj.mk rk flds).fields = flds from rfl]
  rw [freshOf, List.map_map, List.filterMap_map]
  refine filterMap_ext_mem flds _ _ (fun f hf => ?_)
  cases hmf : f.meta with
  | none =>
    simp only [Function.comp_apply, hmf]
    cases hlk : upds.lookup f.propName <;> simp [hlk, hmf]
  | some m =>
    have hlook := hl f hf m hmf
    simp only [Function.comp_apply, hmf]
    simp [hlook, hmf]

/-! ## Serializer on round-trip instances -/

theorem pathPairs_keys (flds : List Field) :
    (pathPairs flds).map Prod.fst = pathKeys flds := by
  induction flds with
  | nil => rfl
  | cons f rest ih =>
    cases hm : f.meta with
    | none =>
      have h1 : pathPairs (f :: rest) = pathPairs rest := by
        simp [pathPairs, List.filterMap_cons, hm]
      have h2 : pathKeys (f :: rest) = pathKeys rest := by
        simp [pathKeys, List.filterMap_cons, hm]
      rw [h1, h2, ih]
    | some m =>
      cases m with
      | path pk =>
        have h1 : pathPairs (f :: rest) = (pk.getD f.propName, jsToString f.value) :: pathPairs rest := by
          simp [pathPairs, List.filterMap_cons, hm]
        have h2 : pathKeys (f :: rest) = (pk.getD f.propName) :: pathKeys rest := by
          simp [pathKeys, List.filterMap_cons, hm]
        rw [h1, h2, List.map_cons, ih]
      | pathSerde ser de =>
        have h1 : pathPairs (f :: rest) = pathPairs rest := by
          simp [pathPairs, List.filterMap_cons, hm]
        have h2 : pathKeys (f :: rest) = pathKeys rest := by
          simp [pathKeys, List.filterMap_cons, hm]
        rw [h1, h2, ih]
      | query pk dt =>
        have h1 : pathPairs (f :: rest) = pathPairs rest := by
          simp [pathPairs, List.filterMap_cons, hm]
        have h2 : pathKeys (f :: rest) = pathKeys rest := by
          simp [pathKeys, List.filterMap_cons, hm]
        rw [h1, h2, ih]
      | querySerde ser de =>
        have h1 : pathPairs (f :: rest) = pathPairs rest := by
          simp [pathPairs, List.filterMap_cons, hm]
        have h2 : pathKeys (f :: rest) = pathKeys rest := by
          simp [pathKeys, List.filterMap_cons, hm]
        rw [h1, h2, ih]

theorem queryStrPairs_keys (flds : List Field) :
    (queryStrPairs flds).map Prod.fst = queryKeys flds := by
  induction flds with
  | nil => rfl
  | cons f rest ih =>
    cases hm : f.meta with
    | none =>
      have h1 : queryStrPairs (f :: rest) = queryStrPairs rest := by
        simp [queryStrPairs, List.filterMap_cons, hm]
      have h2 : queryKeys (f :: rest) = queryKeys rest := by
        simp [queryKeys, List.filterMap_cons, hm]
      rw [h1, h2, ih]
    | some m =>
      cases m with
      | path pk =>
        have h1 : queryStrPairs (f :: rest) = queryStrPairs rest := by
          simp [queryStrPairs, List.filterMap_cons, hm]
        have h2 : queryKeys (f :: rest) = queryKeys rest := by
          simp [queryKeys, List.filterMap_cons, hm]
        rw [h1, h2, ih]
      | pathSerde ser de =>
        have h1 : queryStrPairs (f :: rest) = queryStrPairs rest := by
          simp [queryStrPairs, List.filterMap_cons, hm]
        have h2 : queryKeys (f :: rest) = queryKeys rest := by
          simp [queryKeys, List.filterMap_cons, hm]
        rw [h1, h2, ih]
      | query pk dt =>
        have h1 : queryStrPairs (f :: rest) = (pk.getD f.propName, if dt = some DataKind.boolean then "" else jsToString f.value) :: queryStrPairs rest := by
          simp [queryStrPairs, List.filterMap_cons, hm]
        have h2 : queryKeys (f :: rest) = (pk.getD f.propName) :: queryKeys rest := by
          simp [queryKeys, List.filterMap_cons, hm]
        rw [h1, h2, List.map_cons, ih]
      | querySerde ser de =>
        have h1 : queryStrPairs (f :: rest) = queryStrPairs rest := by
          simp [queryStrPairs, List.filterMap_cons, hm]
        have h2 : queryKeys (f :: rest) = queryKeys rest := by
          simp [queryKeys, List.filterMap_cons, hm]
        rw [h1, h2, ih]

theorem mem_pathPairs (flds : List Field) (k v : String)
    (hm : (k, v) ∈ pathPairs flds) :
    ∃ f ∈ flds, ∃ pk, f.meta = some (Metadata.path pk) ∧ k = pk.getD f.propName ∧
      v = jsToString f.value := by
  rcases List.mem_filterMap.mp hm with ⟨f, hf, hsel⟩
  cases hmf : f.meta with
  | none =>
    rw [hmf] at hsel
    cases hsel
  | some m =>
    cases m with
    | path pk =>
      rw [hmf] at hsel
      simp only [Option.some.injEq, Prod.mk.injEq] at hsel
      exact ⟨f, hf, pk, hmf, hsel.1.symm, hsel.2.symm⟩
    | pathSerde ser de =>
      rw [hmf] at hsel
      cases hsel
    | query pk dt =>
      rw [hmf] at hsel
      cases hsel
    | querySerde ser de =>
      rw [hmf] at hsel
      cases hsel

theorem mem_queryStrPairs (flds : List Field) (k v : String)
    (hm : (k, v) ∈ queryStrPairs flds) :
    ∃ f ∈ flds, ∃ pk dt, f.meta = some (Metadata.query pk dt) ∧ k = pk.getD f.propName ∧
      v = (if dt = some DataKind.boolean then "" else jsToString f.value) := by
  rcases List.mem_filterMap.mp hm with ⟨f, hf, hsel⟩
  cases hmf : f.meta with
  | none =>
    rw [hmf] at hsel
    cases hsel
  | some m =>
    cases m with
    | path pk =>
      rw [hmf] at hsel
      cases hsel
    | pathSerde ser de =>
      rw [hmf] at hsel
      cases hsel
    | query pk dt =>
      rw [hmf] at hsel
      simp only [Option.some.injEq, Prod.mk.injEq] at hsel
      exact ⟨f, hf, pk, dt, hmf, hsel.1.symm, hsel.2.symm⟩
    | querySerde ser de =>
      rw [hmf] at hsel
      cases hsel

theorem pathPairs_mem_of_field (flds : List Field) (f : Field) (hf : f ∈ flds)
    (pk : Option String) (hm : f.meta = some (Metadata.path pk)) :
    (pk.getD f.propName, jsToString f.value) ∈ pathPairs flds :=
  List.mem_filterMap.mpr ⟨f, hf, by rw [hm]⟩

theorem queryStrPairs_mem_of_field (flds : List Field) (f : Field) (hf : f ∈ flds)
    (pk : Option String) (dt : Option DataKind) (hm : f.meta = some (Metadata.query pk dt)) :
    (pk.getD f.propName, if dt = some DataKind.boolean then "" else jsToString f.value) ∈
      queryStrPairs flds :=
  List.mem_filterMap.mpr ⟨f, hf, by rw [hm]⟩

theorem foldl_setParam_strs (qsp : List (String × String)) :
    ∀ acc : List (String × String),
    ((qsp.map Prod.fst).Nodup) →
    (∀ kv ∈ acc, ∀ k ∈ qsp.map Prod.fst, kv.1 ≠ k) →
    (qsp.map (fun kv => (kv.1, QueryVal.str kv.2))).foldl
      (fun ps kv =>
        match kv.2 with
        | .arr vs => vs.foldl (fun ps2 v => appendParam ps2 kv.1 v) ps
        | .str v => setParam ps kv.1 v) acc = acc ++ qsp := by
  induction qsp with
  | nil =>
    intro acc _ _
    simp
  | cons kv rest ih =>
    intro acc hnd hfr
    obtain ⟨k, v⟩ := kv
    rw [List.map_cons, List.nodup_cons] at hnd
    rw [List.map_cons, List.foldl_cons]
    rw [show (match ((k, v).1, QueryVal.str (k, v).2).2 with
      | .arr vs => vs.foldl (fun ps2 v2 => appendParam ps2 ((k, v).1, QueryVal.str (k, v).2).1 v2) acc
      | .str v2 => setParam acc ((k, v).1, QueryVal.str (k, v).2).1 v2) =
      setParam acc k v from rfl]
    rw [setParam_fresh acc k v
      (fun p hp => hfr p hp k (List.map_cons .. ▸ List.mem_cons_self _ _))]
    have hfr2 : ∀ p ∈ acc ++ [(k, v)], ∀ k2 ∈ rest.map Prod.fst, p.1 ≠ k2 := by
      intro p hp k2 hk2
      rcases List.mem_append.mp hp with hp | hp
      · exact hfr p hp k2 (List.map_cons .. ▸ List.mem_cons_of_mem _ hk2)
      · rw [List.mem_singleton.mp hp]
        exact fun he => hnd.1 (he ▸ hk2)
    rw [ih (acc ++ [(k, v)]) hnd.2 hfr2, List.append_assoc, List.singleton_append]

theorem urlencodedSerializeL_ne_nil (kv : String × String) (rest : List (String × String)) :
    urlencodedSerializeL (kv :: rest) ≠ [] := by
  cases rest with
  | nil =>
    rw [urlencodedSerializeL]
    intro hcon
    rcases List.append_eq_nil.mp hcon with ⟨_, h2⟩
    cases h2
  | cons kv2 rest2 =>
    rw [urlencodedSerializeL]
    · intro hcon
      rcases List.append_eq_nil.mp hcon with ⟨_, h2⟩
      cases h2
    · exact fun hcon => by cases hcon

theorem mk_append_mk (a b : List Char) : String.mk a ++ String.mk b = String.mk (a ++ b) := rfl

theorem toRelativePath_round (pat : String) (pp qsp : List (String × String))
    (hok : flatOk (tokenize pat.data) = true)
    (hkeys : ∀ kv ∈ pp, '}' ∉ kv.1.data)
    (hcnd : (capNames (tokenize pat.data)).Nodup)
    (hcov2 : ∀ n ∈ capNames (tokenize pat.data), ∃ kv ∈ pp, kv.1 = n)
    (hndq : (qsp.map Prod.fst).Nodup) :
    toRelativePath pat pp (some (qsp.map (fun kv => (kv.1, QueryVal.str kv.2)))) =
      .ok (String.mk (renderSub (pp.map fun kv => (kv.1, encodeURIComponentL kv.2.data))
        (tokenize pat.data) ++
        (if qsp = [] then [] else '?' :: urlencodedSerializeL qsp))) := by
  have hurl0 : pp.foldl
      (fun u kv => replaceFirstL u ('{' :: (kv.1.data ++ ['}'])) (encodeURIComponentL kv.2.data))
      pat.data =
      renderSub (pp.map fun kv => (kv.1, encodeURIComponentL kv.2.data)) (tokenize pat.data) := by
    conv_lhs => rw [← flatToks_tokenize pat.data]
    rw [foldl_replaceFirstL_flat pp (tokenize pat.data) hok hkeys]
    exact flatToks_substAll_renderSub (tokenize pat.data) pp hcnd hcov2
  have hcaps : capNames (substAll (tokenize pat.data) pp) = [] := by
    rw [capNames_substAll]
    exact foldl_erase_of_covered pp (capNames (tokenize pat.data)) hcnd hcov2
  have hnob : (renderSub (pp.map fun kv => (kv.1, encodeURIComponentL kv.2.data))
      (tokenize pat.data)).contains '{' = false := by
    rw [← flatToks_substAll_renderSub (tokenize pat.data) pp hcnd hcov2]
    exact flat_no_cap_no_brace (substAll (tokenize pat.data) pp)
      (flatOk_substAll (tokenize pat.data) pp hok) hcaps
  have hfold : (qsp.map (fun kv => (kv.1, QueryVal.str kv.2))).foldl
      (fun ps kv =>
        match kv.2 with
        | .arr vs => vs.foldl (fun ps2 v => appendParam ps2 kv.1 v) ps
        | .str v => setParam ps kv.1 v) [] = qsp := by
    rw [foldl_setParam_strs qsp [] hndq (by intro kv hkv; cases hkv)]
    rfl
  rw [toRelativePath]
  simp only [hurl0, hnob, Bool.false_eq_true, if_false, hfold]
  cases hq : qsp with
  | nil =>
    rw [if_pos rfl]
    rw [show urlencodedSerialize [] = "" from rfl]
    rw [if_pos rfl, List.append_nil]
  | cons kv rest =>
    rw [if_neg (List.cons_ne_nil kv rest)]
    rw [urlencodedSerialize]
    rw [if_neg (fun hcon => urlencodedSerializeL_ne_nil kv rest (congrArg String.data hcon))]
    rw [show ("?" : String) = String.mk ['?'] from rfl, mk_append_mk, mk_append_mk]
    rw [List.append_assoc, List.singleton_append]

theorem toRelativeUrl_round (pat : String) (flds : List Field)
    (hsh : ∀ f ∈ flds, roundShape f = true)
    (hnd1 : (pathKeys flds).Nodup) (hnd2 : (queryKeys flds).Nodup)
    (hok : flatOk (tokenize pat.data) = true)
    (hcnd : (capNames (tokenize pat.data)).Nodup)
    (hcov : ∀ n ∈ capNames (tokenize pat.data), n ∈ pathKeys flds) :
    toRelativeUrl ⟨some pat, flds⟩ none = .ok (String.mk (roundUrlData pat flds)) := by
  have hkeys : ∀ kv ∈ pathPairs flds, '}' ∉ kv.1.data := by
    intro kv hkv
    obtain ⟨f, hf, pk, hmf, hk, _⟩ := mem_pathPairs flds kv.1 kv.2 (by
      rw [show (kv.1, kv.2) = kv from rfl]
      exact hkv)
    obtain ⟨_, _, _, _, hkb⟩ := roundShape_path f pk hmf (hsh f hf)
    rw [hk]
    exact fun hmem => not_mem_of_contains_false hkb '}' hmem rfl
  have hcov2 : ∀ n ∈ capNames (tokenize pat.data), ∃ kv ∈ pathPairs flds, kv.1 = n := by
    intro n hn
    have hn2 := hcov n hn
    rw [← pathPairs_keys] at hn2
    rcases List.mem_map.mp hn2 with ⟨kv, hkv, he⟩
    exact ⟨kv, hkv, he⟩
  have hndq : ((queryStrPairs flds).map Prod.fst).Nodup := by
    rw [queryStrPairs_keys]
    exact hnd2
  have h0 : toRelativeUrl ⟨some pat, flds⟩ none =
      toRelativePath pat (collectParams flds).1 (some (collectParams flds).2) := rfl
  rw [h0, collectParams_eq flds hsh hnd1 hnd2]
  rw [show ((pathPairs flds, (queryStrPairs flds).map (fun kv => (kv.1, QueryVal.str kv.2))) :
      List (String × String) × List (String × QueryVal)).1 = pathPairs flds from rfl]
  rw [show ((pathPairs flds, (queryStrPairs flds).map (fun kv => (kv.1, QueryVal.str kv.2))) :
      List (String × String) × List (String × QueryVal)).2 =
    (queryStrPairs flds).map (fun kv => (kv.1, QueryVal.str kv.2)) from rfl]
  rw [toRelativePath_round pat (pathPairs flds) (queryStrPairs flds) hok hkeys hcnd hcov2 hndq]
  rw [roundUrlData]

/-! ## Deserializer helpers on round-trip inputs -/

theorem asciiL_forall (cs : List Char) (h : asciiL cs = true) : ∀ c ∈ cs, c.toNat < 128 := by
  intro c hc
  have h2 := List.all_eq_true.mp h c hc
  simpa using h2

theorem hexDigit_ne_hash : ∀ m : Fin 16, ¬ hexDigit m.val = '#' := by decide

theorem formEncode_ne_hash (cs : List Char) : ∀ c ∈ formUrlEncodeL cs, ¬ c = '#' := by
  intro c hc
  rcases formEncode_mem_cases cs c hc with h | h | h | ⟨m, h⟩
  · rw [h]
    decide
  · exact fun he => absurd (he ▸ h) (by decide)
  · rw [h]
    decide
  · rw [h]
    exact hexDigit_ne_hash m

theorem serialize_no_hash (ps : List (String × String)) :
    ∀ c ∈ urlencodedSerializeL ps, ¬ c = '#' := by
  induction ps with
  | nil => intro c hc; cases hc
  | cons kv rest ih =>
    intro c hc
    cases rest with
    | nil =>
      have hc2 : c ∈ formUrlEncodeL kv.1.data ++ '=' :: formUrlEncodeL kv.2.data := hc
      rcases List.mem_append.mp hc2 with hc3 | hc3
      · exact formEncode_ne_hash kv.1.data c hc3
      · rcases List.mem_cons.mp hc3 with hc4 | hc4
        · exact fun he => absurd (hc4 ▸ he) (by decide)
        · exact formEncode_ne_hash kv.2.data c hc4
    | cons kv2 rest2 =>
      have hc2 : c ∈ (formUrlEncodeL kv.1.data ++ '=' :: formUrlEncodeL kv.2.data) ++
          '&' :: urlencodedSerializeL (kv2 :: rest2) := hc
      rcases List.mem_append.mp hc2 with hc3 | hc3
      · rcases List.mem_append.mp hc3 with hc4 | hc4
        · exact formEncode_ne_hash kv.1.data c hc4
        · rcases List.mem_cons.mp hc4 with hc5 | hc5
          · exact fun he => absurd (hc5 ▸ he) (by decide)
          · exact formEncode_ne_hash kv.2.data c hc5
      · rcases List.mem_cons.mp hc3 with hc4 | hc4
        · exact fun he => absurd (hc4 ▸ he) (by decide)
        · exact ih c hc4

theorem groupsOf_lookup (params : List (String × List Char)) (ts : List Tok) (n : String)
    (hn : n ∈ capNames ts) :
    (groupsOf params ts).lookup n = some ((params.lookup n).getD []) := by
  induction ts with
  | nil => cases hn
  | cons t rest ih =>
    cases t with
    | lit l =>
      rw [capNames_lit_cons] at hn
      rw [show groupsOf params (.lit l :: rest) = groupsOf params rest from by
        simp [groupsOf, List.filterMap_cons]]
      exact ih hn
    | cap m =>
      rw [capNames_cap_cons] at hn
      rw [show groupsOf params (.cap m :: rest) =
        (m, (params.lookup m).getD []) :: groupsOf params rest from by
        simp [groupsOf, List.filterMap_cons]]
      by_cases hnm : n = m
      · subst hnm
        rw [List.lookup]
        simp
      · have hbeq : (n == m) = false := beq_eq_false_iff_ne.mpr hnm
        rw [List.lookup]
        simp only [hbeq]
        rcases List.mem_cons.mp hn with hn | hn
        · exact absurd hn hnm
        · exact ih hn

theorem freshOf_names (flds : List Field) :
    (freshOf flds).map Field.propName = flds.map Field.propName := by
  rw [freshOf, List.map_map]
  exact map_ext_mem flds _ _ (fun f _ => rfl)

theorem pathInfos_freshOf (flds : List Field) :
    pathInfos (freshOf flds) = pathInfos flds := by
  rw [freshOf, pathInfos, pathInfos, List.filterMap_map]
  exact filterMap_ext_mem flds _ _ (fun f _ => rfl)

theorem queryInfos_freshOf (flds : List Field) :
    queryInfos (freshOf flds) = queryInfos flds := by
  rw [freshOf, queryInfos, queryInfos, List.filterMap_map]
  exact filterMap_ext_mem flds _ _ (fun f _ => rfl)

theorem pathPairs_lookup_mem (flds : List Field) (n : String)
    (hnd1 : (pathKeys flds).Nodup) (hn : n ∈ pathKeys flds) :
    ∃ w, (pathPairs flds).lookup n = some w ∧ (n, w) ∈ pathPairs flds := by
  have hndp : ((pathPairs flds).map Prod.fst).Nodup := by
    rw [pathPairs_keys]
    exact hnd1
  rw [← pathPairs_keys] at hn
  rcases List.mem_map.mp hn with ⟨kv, hkv, he⟩
  have hmem : (n, kv.2) ∈ pathPairs flds := by
    rw [← he]
    exact hkv
  exact ⟨kv.2, lookup_of_mem_nodup _ _ _ hndp hmem, hmem⟩

theorem queryStrPairs_ascii (flds : List Field)
    (hsh : ∀ f ∈ flds, roundShape f = true) :
    ∀ kv ∈ queryStrPairs flds, (∀ c ∈ (kv.1 : String).data, c.toNat < 128) ∧
      (∀ c ∈ (kv.2 : String).data, c.toNat < 128) := by
  intro kv hkv
  obtain ⟨f, hf, pk, dt, hmf, hk, hv⟩ := mem_queryStrPairs flds kv.1 kv.2 (by
    rw [show (kv.1, kv.2) = kv from rfl]
    exact hkv)
  obtain ⟨hka, hval⟩ := roundShape_query f pk dt hmf (hsh f hf)
  constructor
  · rw [hk]
    exact asciiL_forall _ hka
  · by_cases hdt : dt = some DataKind.boolean
    · rw [if_pos hdt] at hv
      rw [hv]
      intro c hc
      cases hc
    · rw [if_neg hdt] at hv
      rw [if_neg hdt] at hval
      obtain ⟨s, hvs, hsa⟩ := hval
      rw [hv, hvs]
      exact asciiL_forall _ hsa

theorem lookup_map_encode (l : List (String × String)) (k : String) :
    ((l.map fun kv => (kv.1, encodeURIComponentL kv.2.data)).lookup k) =
      (l.lookup k).map (fun v => encodeURIComponentL v.data) := by
  induction l with
  | nil => rfl
  | cons kv rest ih =>
    obtain ⟨k0, v0⟩ := kv
    rw [List.map_cons, List.lookup, List.lookup]
    cases hbeq : k == k0 with
    | true => simp [hbeq]
    | false => simp [hbeq, ih]

theorem lookup_map_mk (l : List (String × List Char)) (k : String) :
    ((l.map fun nv => (nv.1, String.mk nv.2)).lookup k) = (l.lookup k).map String.mk := by
  induction l with
  | nil => rfl
  | cons kv rest ih =>
    obtain ⟨k0, v0⟩ := kv
    rw [List.map_cons, List.lookup, List.lookup]
    cases hbeq : k == k0 with
    | true => simp [hbeq]
    | false => simp [hbeq, ih]

theorem upds_fold_eq (pat : String) (flds : List Field)
    (hnames : (flds.map Field.propName).Nodup) :
    (queryUpds flds).foldl (fun o kv => setField o kv.1 kv.2)
      ((pathUpds flds).foldl (fun o kv => setField o kv.1 kv.2) ⟨some pat, freshOf flds⟩) =
    ⟨some pat, (freshOf flds).map (fun g =>
      match (pathUpds flds ++ queryUpds flds).lookup g.propName with
      | some v => ⟨g.propName, g.meta, v⟩
      | none => g)⟩ := by
  rw [← List.foldl_append]
  refine foldl_setField_fields _ (some pat) (freshOf flds) ?_ ?_ (upds_keys_nodup flds hnames)
  · intro kv hkv
    rw [freshOf_names]
    rcases List.mem_append.mp hkv with hkv | hkv
    · obtain ⟨f, hf, pk, hmf, hkf, _⟩ := mem_pathUpds flds kv.1 kv.2 (by
        rw [show (kv.1, kv.2) = kv from rfl]
        exact hkv)
      rw [hkf]
      exact List.mem_map.mpr ⟨f, hf, rfl⟩
    · obtain ⟨f, hf, pk, dt, hmf, hkf, _⟩ := mem_queryUpds flds kv.1 kv.2 (by
        rw [show (kv.1, kv.2) = kv from rfl]
        exact hkv)
      rw [hkf]
      exact List.mem_map.mpr ⟨f, hf, rfl⟩
  · rw [freshOf_names]
    exact hnames

theorem fromUrl_round (pat nm : String) (flds : List Field)
    (hsh : ∀ f ∈ flds, roundShape f = true)
    (hnames : (flds.map Field.propName).Nodup)
    (hnd1 : (pathKeys flds).Nodup) (hnd2 : (queryKeys flds).Nodup)
    (hsep : capSeparated (tokenize pat.data) = true)
    (hcov : ∀ n ∈ capNames (tokenize pat.data), n ∈ pathKeys flds)
    (hcovr : ∀ k ∈ pathKeys flds, k ∈ capNames (tokenize pat.data)) :
    fromUrl ⟨some pat, some nm, freshOf flds⟩ (String.mk (roundUrlData pat flds)) none =
      .ok ⟨some pat, (freshOf flds).map (fun g =>
        match (pathUpds flds ++ queryUpds flds).lookup g.propName with
        | some v => ⟨g.propName, g.meta, v⟩
        | none => g)⟩ := by
  have hndp : ((pathPairs flds).map Prod.fst).Nodup := by
    rw [pathPairs_keys]
    exact hnd1
  have hndq : ((queryStrPairs flds).map Prod.fst).Nodup := by
    rw [queryStrPairs_keys]
    exact hnd2
  have hvals : ∀ n ∈ capNames (tokenize pat.data),
      ∃ v, ((pathPairs flds).map fun kv => (kv.1, encodeURIComponentL kv.2.data)).lookup n =
        some v ∧ v ≠ [] ∧ ∀ c ∈ v, capChar c = true := by
    intro n hn
    obtain ⟨w, hlk, hmem⟩ := pathPairs_lookup_mem flds n hnd1 (hcov n hn)
    obtain ⟨f, hf, pk, hmf, hkf, hvf⟩ := mem_pathPairs flds n w hmem
    obtain ⟨s, hvs, hsne, hsa, _⟩ := roundShape_path f pk hmf (hsh f hf)
    have hws : w = s := by
      rw [hvf, hvs]
      rfl
    refine ⟨encodeURIComponentL w.data, ?_, ?_, ?_⟩
    · rw [lookup_map_encode, hlk]
      rfl
    · exact encode_nonempty w.data (by
        rw [hws]
        exact hsne)
    · exact encode_capChar w.data
  have hg : ∀ f ∈ flds, ∀ pk, f.meta = some (Metadata.path pk) →
      ∃ s, f.value = .str s ∧ (∀ c ∈ s.data, c.toNat < 128) ∧
        (((groupsOf ((pathPairs flds).map fun kv => (kv.1, encodeURIComponentL kv.2.data))
            (tokenize pat.data)).map fun nv => (nv.1, String.mk nv.2)).lookup
          (pk.getD f.propName) = some (String.mk (encodeURIComponentL s.data))) := by
    intro f hf pk hm
    obtain ⟨s, hvs, hsne, hsa, _⟩ := roundShape_path f pk hm (hsh f hf)
    refine ⟨s, hvs, asciiL_forall _ hsa, ?_⟩
    have hek : pk.getD f.propName ∈ pathKeys flds := by
      rw [← pathPairs_keys]
      exact List.mem_map.mpr ⟨(pk.getD f.propName, jsToString f.value),
        pathPairs_mem_of_field flds f hf pk hm, rfl⟩
    have hcap := hcovr _ hek
    have hlkw : (pathPairs flds).lookup (pk.getD f.propName) = some (jsToString f.value) :=
      lookup_of_mem_nodup _ _ _ hndp (pathPairs_mem_of_field flds f hf pk hm)
    rw [lookup_map_mk, groupsOf_lookup _ _ _ hcap]
    rw [show ((pathPairs flds).map fun kv =>
        (kv.1, encodeURIComponentL kv.2.data)).lookup (pk.getD f.propName) =
      some (encodeURIComponentL (jsToString f.value).data) from by
        rw [lookup_map_encode, hlkw]
        rfl]
    rw [Option.getD_some, Option.map_some', hvs]
    rfl
  have h0 : fromUrl ⟨some pat, some nm, freshOf flds⟩ (String.mk (roundUrlData pat flds)) none =
      (match execCompiled (tokenize pat.data)
          (String.mk (roundUrlData pat flds)).data with
       | none => Except.error RoutingError.parseError
       | some gq =>
         match applyPathFields (resolveFieldsMetadata (freshOf flds)).1 gq.1
             ⟨some pat, freshOf flds⟩ with
         | .error e => .error e
         | .ok tmp1 =>
           applyQueryFields (resolveFieldsMetadata (freshOf flds)).2
             (match gq.2 with
              | some qs => parseUrlencoded qs
              | none => []) tmp1) := rfl
  rw [h0]
  by_cases hq : queryStrPairs flds = []
  · have hurl : roundUrlData pat flds =
        renderSub ((pathPairs flds).map fun kv => (kv.1, encodeURIComponentL kv.2.data))
          (tokenize pat.data) := by
      rw [roundUrlData, if_pos hq, List.append_nil]
    have hmp := matchPath_renderSub (tokenize pat.data)
      ((pathPairs flds).map fun kv => (kv.1, encodeURIComponentL kv.2.data)) []
      hsep hvals (Or.inl rfl)
    rw [List.append_nil] at hmp
    have hex := execSearch_of_matchPath _ _ _ hmp
    have hec : execCompiled (tokenize pat.data) (String.mk (roundUrlData pat flds)).data =
        some (((groupsOf ((pathPairs flds).map fun kv => (kv.1, encodeURIComponentL kv.2.data))
          (tokenize pat.data)).map fun nv => (nv.1, String.mk nv.2)), none) := by
      rw [data_mk, hurl, execCompiled, hex, Option.map_some']
    simp only [hec]
    rw [resolveFieldsMetadata_eq (freshOf flds)]
    simp only [pathInfos_freshOf, queryInfos_freshOf]
    rw [applyPathFields_roundtrip flds _ _ hsh hg]
    rw [show (match (Except.ok ((pathUpds flds).foldl (fun o kv => setField o kv.1 kv.2)
          ⟨some pat, freshOf flds⟩) : Except RoutingError Obj) with
        | .error e => Except.error e
        | .ok tmp1 => applyQueryFields (queryInfos flds) [] tmp1) =
      applyQueryFields (queryInfos flds) []
        ((pathUpds flds).foldl (fun o kv => setField o kv.1 kv.2)
          ⟨some pat, freshOf flds⟩) from rfl]
    have hq0 : ∀ f ∈ flds, ∀ pk dt, f.meta = some (Metadata.query pk dt) →
        (if dt = some DataKind.boolean then
          f.value = .bool true ∧
            (searchParamsGet [] (pk.getD f.propName)).isSome = true
        else
          ∃ s, f.value = .str s ∧ searchParamsGet [] (pk.getD f.propName) = some s) := by
      intro f hf pk dt hm
      have hmem := queryStrPairs_mem_of_field flds f hf pk dt hm
      rw [hq] at hmem
      cases hmem
    rw [applyQueryFields_roundtrip flds [] _ hsh hq0]
    rw [upds_fold_eq pat flds hnames]
  · have hurl : roundUrlData pat flds =
        renderSub ((pathPairs flds).map fun kv => (kv.1, encodeURIComponentL kv.2.data))
          (tokenize pat.data) ++ '?' :: urlencodedSerializeL (queryStrPairs flds) := by
      rw [roundUrlData, if_neg hq]
    have hmp := matchPath_renderSub (tokenize pat.data)
      ((pathPairs flds).map fun kv => (kv.1, encodeURIComponentL kv.2.data))
      ('?' :: urlencodedSerializeL (queryStrPairs flds))
      hsep hvals (Or.inr ⟨'?', urlencodedSerializeL (queryStrPairs flds), rfl, by decide⟩)
    have hex := execSearch_of_matchPath _ _ _ hmp
    have htw : (urlencodedSerializeL (queryStrPairs flds)).takeWhile (fun c => c ≠ '#') =
        urlencodedSerializeL (queryStrPairs flds) := by
      refine takeWhile_all _ _ (fun c hc => ?_)
      simpa using serialize_no_hash (queryStrPairs flds) c hc
    have hec : execCompiled (tokenize pat.data) (String.mk (roundUrlData pat flds)).data =
        some (((groupsOf ((pathPairs flds).map fun kv => (kv.1, encodeURIComponentL kv.2.data))
          (tokenize pat.data)).map fun nv => (nv.1, String.mk nv.2)),
          some (urlencodedSerializeL (queryStrPairs flds))) := by
      rw [data_mk, hurl, execCompiled, hex, Option.map_some']
      simp only [htw]
    simp only [hec]
    rw [resolveFieldsMetadata_eq (freshOf flds)]
    simp only [pathInfos_freshOf, queryInfos_freshOf]
    rw [parseUrlencoded_serialize (queryStrPairs flds) (queryStrPairs_ascii flds hsh)]
    rw [applyPathFields_roundtrip flds _ _ hsh hg]
    rw [show (match (Except.ok ((pathUpds flds).foldl (fun o kv => setField o kv.1 kv.2)
          ⟨some pat, freshOf flds⟩) : Except RoutingError Obj) with
        | .error e => Except.error e
        | .ok tmp1 => applyQueryFields (queryInfos flds) (queryStrPairs flds) tmp1) =
      applyQueryFields (queryInfos flds) (queryStrPairs flds)
        ((pathUpds flds).foldl (fun o kv => setField o kv.1 kv.2)
          ⟨some pat, freshOf flds⟩) from rfl]
    have hq1 : ∀ f ∈ flds, ∀ pk dt, f.meta = some (Metadata.query pk dt) →
        (if dt = some DataKind.boolean then
          f.value = .bool true ∧
            (searchParamsGet (queryStrPairs flds) (pk.getD f.propName)).isSome = true
        else
          ∃ s, f.value = .str s ∧
            searchParamsGet (queryStrPairs flds) (pk.getD f.propName) = some s) := by
      intro f hf pk dt hm
      obtain ⟨hka, hval⟩ := roundShape_query f pk dt hm (hsh f hf)
      have hmem := queryStrPairs_mem_of_field flds f hf pk dt hm
      by_cases hdt : dt = some DataKind.boolean
      · rw [if_pos hdt] at hval hmem ⊢
        have hget := searchParamsGet_of_mem_nodup _ _ _ hndq hmem
        exact ⟨hval, by
          rw [hget]
          rfl⟩
      · rw [if_neg hdt] at hval hmem ⊢
        obtain ⟨s, hvs, _⟩ := hval
        have hget := searchParamsGet_of_mem_nodup _ _ _ hndq hmem
        refine ⟨s, hvs, ?_⟩
        rw [hget, hvs]
        rfl
    rw [applyQueryFields_roundtrip flds (queryStrPairs flds) _ hsh hq1]
    rw [upds_fold_eq pat flds hnames]

/-- C1 amended: the round trip restores every annotated field for
instances in the supported shapes: plain path fields holding nonempty
ASCII strings whose external keys are exactly the distinct pattern
placeholders, each placeholder separated from capturable text, plain
query fields holding ASCII strings, Boolean-kind query fields holding
true, all property names and external keys distinct.  Serialization
yields the substituted pattern plus the form-encoded query string, and
deserializing that URL against the class returns an instance whose
annotated fields carry the original values.  The original claim is wrong
in general: a Boolean-kind query field holding false serializes to
key=false, and parsing assigns presence, flipping the value to true. -/
theorem C1_amended (pat nm : String) (flds : List Field)
    (hsh : ∀ f ∈ flds, roundShape f = true)
    (hnames : (flds.map Field.propName).Nodup)
    (hnd1 : (pathKeys flds).Nodup) (hnd2 : (queryKeys flds).Nodup)
    (hok : flatOk (tokenize pat.data) = true)
    (hsep : capSeparated (tokenize pat.data) = true)
    (hcnd : (capNames (tokenize pat.data)).Nodup)
    (hcov : ∀ n ∈ capNames (tokenize pat.data), n ∈ pathKeys flds)
    (hcovr : ∀ k ∈ pathKeys flds, k ∈ capNames (tokenize pat.data)) :
    toRelativeUrl ⟨some pat, flds⟩ none = .ok (String.mk (roundUrlData pat flds)) ∧
    (fromUrl ⟨some pat, some nm, freshOf flds⟩ (String.mk (roundUrlData pat flds)) none).map
      annotatedValues = .ok (annotatedValues ⟨some pat, flds⟩) := by
  refine ⟨toRelativeUrl_round pat flds hsh hnd1 hnd2 hok hcnd hcov, ?_⟩
  rw [fromUrl_round pat nm flds hsh hnames hnd1 hnd2 hsep hcov hcovr]
  rw [show Except.map annotatedValues
      (Except.ok (⟨some pat, (freshOf flds).map (fun g =>
        match (pathUpds flds ++ queryUpds flds).lookup g.propName with
        | some v => ⟨g.propName, g.meta, v⟩
        | none => g)⟩ : Obj) : Except RoutingError Obj) =
    Except.ok (annotatedValues ⟨some pat, (freshOf flds).map (fun g =>
        match (pathUpds flds ++ queryUpds flds).lookup g.propName with
        | some v => ⟨g.propName, g.meta, v⟩
        | none => g)⟩) from rfl]
  refine congrArg Except.ok
    (annotatedValues_final flds (some pat) (some pat) (pathUpds flds ++ queryUpds flds) ?_)
  intro f hf m hm
  have hndu := upds_keys_nodup flds hnames
  cases m with
  | path pk =>
    exact lookup_of_mem_nodup _ _ _ hndu
      (List.mem_append_left _ (List.mem_filterMap.mpr ⟨f, hf, by rw [hm]⟩))
  | pathSerde ser de =>
    exact absurd (hsh f hf) (by
      intro hc
      exact roundShape_no_pathSerde f ser de hm hc)
  | query pk dt =>
    exact lookup_of_mem_nodup _ _ _ hndu
      (List.mem_append_right _ (List.mem_filterMap.mpr ⟨f, hf, by rw [hm]⟩))
  | querySerde ser de =>
    exact absurd (hsh f hf) (by
      intro hc
      exact roundShape_no_querySerde f ser de hm hc)

/-- Witness for C1 amended at a concrete route: pattern /u/\x7bid\x7d with a
path field, a plain query field and a Boolean-kind query field. -/
theorem C1_amended_witness :
    toRelativeUrl ⟨some "/u/{id}", roundFlds⟩ none =
      .ok (String.mk (roundUrlData "/u/{id}" roundFlds)) ∧
    (fromUrl ⟨some "/u/{id}", some "u", freshOf roundFlds⟩
        (String.mk (roundUrlData "/u/{id}" roundFlds)) none).map annotatedValues =
      .ok (annotatedValues ⟨some "/u/{id}", roundFlds⟩) :=
  C1_amended "/u/{id}" "u" roundFlds (by decide) (by decide) (by decide) (by decide)
    (by decide) (by decide) (by decide) (by decide) (by decide)

end Routing
